import Mathlib

/-!
Verification development for the JSLT-playground expression interpreter
(`backend/app/services/jslt/`).  The Python source is shallowly embedded:
strings are `List Char`, JSON values are the inductive `Value` below,
Python `None` is `Value.null`, Python exceptions are `Except EvalErr`,
and the recursive evaluator carries explicit fuel (the Python code has
unbounded recursion; all theorems hold for every sufficient fuel).
Python floats are modelled as exact rationals: no theorem below depends
on IEEE-754 rounding of arithmetic, only on int-versus-float typing and
on values exactly representable in binary floating point.
-/

/-- JSON value domain, mirroring the Python value model used by the
interpreter: `None`, `bool`, `int`, `float`, `str`, `list`, `dict`
(insertion ordered, string keys). -/
inductive Value where
  | null
  | bool (b : Bool)
  | int (n : Int)
  | double (q : Rat)
  | str (s : List Char)
  | arr (xs : List Value)
  | obj (kv : List (List Char × Value))
  deriving Repr

/-- Whitespace characters recognised by Python's `str.strip()` (ASCII part;
the sources never contain non-ASCII whitespace). -/
def pyIsSpace (c : Char) : Bool :=
  c == ' ' || c == '\t' || c == '\n' || c == '\r' || c == '\x0b' || c == '\x0c'

/-- Python `str.strip()`. -/
def stripChars (s : List Char) : List Char :=
  ((s.dropWhile pyIsSpace).reverse.dropWhile pyIsSpace).reverse

/-- Python regex `\w` character class (ASCII part). -/
def isWordChar (c : Char) : Bool :=
  c.isAlphanum || c == '_'

/-- Python substring test `sub in s`. -/
def containsSub : List Char → List Char → Bool
  | s, sub =>
    if sub.isPrefixOf s then true
    else match s with
      | [] => false
      | _ :: t => containsSub t sub

/-- Python `s.split(sep, 1)` when `sep` occurs: the pieces before and after
the first occurrence of `sep`. -/
def splitFirstSub : List Char → List Char → Option (List Char × List Char)
  | s, sep =>
    if sep.isPrefixOf s then some ([], s.drop sep.length)
    else match s with
      | [] => none
      | c :: t =>
        match splitFirstSub t sep with
        | some (l, r) => some (c :: l, r)
        | none => none

/-- Python `s.split(c)` for a single-character separator. -/
def splitChar (sep : Char) : List Char → List (List Char)
  | [] => [[]]
  | c :: t =>
    if c == sep then [] :: splitChar sep t
    else match splitChar sep t with
      | [] => [[c]]
      | l :: ls => (c :: l) :: ls

/-- Opening brackets used for depth tracking (`"{[("`). -/
def openingChars : List Char := ['{', '[', '(']

/-- Closing brackets used for depth tracking (`"}])"`). -/
def closingChars : List Char := ['}', ']', ')']

/-- Loop of `ExpressionParser.split_by_delimiter`, scanning the remaining
characters with the in-string flag, bracket depth, current part and parts
accumulated so far.  Fuel is an upper bound on the number of characters
still to scan; the caller passes `content.length`, which the loop never
exhausts.  (For an empty delimiter the Python loop would not terminate;
the `max … 1` in the delimiter branch is unreachable for the nonempty
delimiters the service uses.) -/
def split_by_delimiter_go (delim : List Char) :
    Nat → List Char → Option Char → Int → List Char → List (List Char) →
    List (List Char) × List Char
  | 0, _, _, _, current, parts => (parts, current)
  | _ + 1, [], _, _, current, parts => (parts, current)
  | fuel + 1, c :: rs, none, depth, current, parts =>
    if c == '"' || c == '\'' then
      split_by_delimiter_go delim fuel rs (some c) depth (current ++ [c]) parts
    else if openingChars.contains c then
      split_by_delimiter_go delim fuel rs none (depth + 1) (current ++ [c]) parts
    else if closingChars.contains c then
      split_by_delimiter_go delim fuel rs none (depth - 1) (current ++ [c]) parts
    else if depth == 0 && delim.isPrefixOf (c :: rs) then
      split_by_delimiter_go delim fuel ((c :: rs).drop (max delim.length 1)) none depth
        [] (parts ++ [stripChars current])
    else
      split_by_delimiter_go delim fuel rs none depth (current ++ [c]) parts
  | fuel + 1, c :: rs, some q, depth, current, parts =>
    if c == q then
      split_by_delimiter_go delim fuel rs none depth (current ++ [c]) parts
    else
      split_by_delimiter_go delim fuel rs (some q) depth (current ++ [c]) parts

/-- `ExpressionParser.split_by_delimiter`: split `content` at top-level
occurrences of `delimiter` (depth zero, not inside a string literal),
delimiter parts trimmed, trailing part appended only when nonblank,
`[content]` when no part at all was produced. -/
def split_by_delimiter (content delimiter : List Char) : List (List Char) :=
  let s := split_by_delimiter_go delimiter content.length content none 0 [] []
  let parts := if (stripChars s.2).isEmpty then s.1 else s.1 ++ [stripChars s.2]
  if parts.isEmpty then [content] else parts

/-- `ExpressionParser.split_object_pairs`. -/
def split_object_pairs (content : List Char) : List (List Char) :=
  split_by_delimiter content [',']

/-- `ExpressionParser.split_array_elements`. -/
def split_array_elements (content : List Char) : List (List Char) :=
  split_by_delimiter content [',']

/-- `ExpressionParser.split_function_args`. -/
def split_function_args (args : List Char) : List (List Char) :=
  split_by_delimiter args [',']

/-- Loop of `ExpressionParser.split_addition_parts`: like the delimiter
loop but splitting at a `+` at depth zero that is surrounded by single
spaces; `prev` is the character before the current one in the original
string.  Fuel as in `split_by_delimiter_go`. -/
def split_addition_parts_go :
    Nat → List Char → Option Char → Option Char → Int → List Char → List (List Char) →
    List (List Char) × List Char
  | 0, _, _, _, _, current, parts => (parts, current)
  | _ + 1, [], _, _, _, current, parts => (parts, current)
  | fuel + 1, c :: rs, prev, none, depth, current, parts =>
    if c == '"' || c == '\'' then
      split_addition_parts_go fuel rs (some c) (some c) depth (current ++ [c]) parts
    else if openingChars.contains c then
      split_addition_parts_go fuel rs (some c) none (depth + 1) (current ++ [c]) parts
    else if closingChars.contains c then
      split_addition_parts_go fuel rs (some c) none (depth - 1) (current ++ [c]) parts
    else if c == '+' && depth == 0 then
      match rs with
      | s :: rs2 =>
        if prev == some ' ' && s == ' ' then
          split_addition_parts_go fuel rs2 (some ' ') none depth []
            (parts ++ [stripChars current])
        else
          split_addition_parts_go fuel rs (some c) none depth (current ++ [c]) parts
      | [] =>
        split_addition_parts_go fuel rs (some c) none depth (current ++ [c]) parts
    else
      split_addition_parts_go fuel rs (some c) none depth (current ++ [c]) parts
  | fuel + 1, c :: rs, _, some q, depth, current, parts =>
    if c == q then
      split_addition_parts_go fuel rs (some c) none depth (current ++ [c]) parts
    else
      split_addition_parts_go fuel rs (some c) (some q) depth (current ++ [c]) parts

/-- `ExpressionParser.split_addition_parts`. -/
def split_addition_parts (expression : List Char) : List (List Char) :=
  let s := split_addition_parts_go expression.length expression none none 0 [] []
  let parts := if (stripChars s.2).isEmpty then s.1 else s.1 ++ [stripChars s.2]
  if parts.isEmpty then [expression] else parts

/-- Match of the regex `\s+(kw)\s*[\(\w]` at the start of `s` (used by
`ExpressionParser.split_let_expression`): at least one whitespace
character, the keyword, optional whitespace, then `(` or a word
character. -/
def matchKeywordAt (kw : List Char) (s : List Char) : Bool :=
  match s.head? with
  | none => false
  | some c =>
    pyIsSpace c &&
      (let t := s.dropWhile pyIsSpace
       kw.isPrefixOf t &&
         (match ((t.drop kw.length).dropWhile pyIsSpace).head? with
          | some u => u == '(' || isWordChar u
          | none => false))

/-- Position of the first match of `\s+(kw)\s*[\(\w]` in `s`
(`re.search` start index), if any. -/
def findKeywordPos (kw : List Char) : List Char → Option Nat
  | [] => none
  | c :: t =>
    if matchKeywordAt kw (c :: t) then some 0
    else (findKeywordPos kw t).map (· + 1)

/-- `ExpressionParser.split_let_expression`: split the text after
`let name = ` into the value expression and the rest, at the earliest
top keyword match among `let`, `for`, `if`. -/
def split_let_expression (expression : List Char) : List Char × List Char :=
  let step := fun (acc : Nat × Bool) (kw : List Char) =>
    match findKeywordPos kw expression with
    | some p => if p < acc.1 then (p, true) else acc
    | none => acc
  let r := [['l','e','t'], ['f','o','r'], ['i','f']].foldl step (expression.length, false)
  if r.2 then
    (stripChars (expression.take r.1), stripChars (expression.drop r.1))
  else
    (stripChars expression, [])

/-- `ExpressionParser.is_string_literal`. -/
def is_string_literal (expression : List Char) : Bool :=
  (expression.head? == some '"' && expression.getLast? == some '"') ||
    (expression.head? == some '\'' && expression.getLast? == some '\'')

/-- `ExpressionParser.is_number_literal` (regex `^-?\d+(\.\d+)?$`). -/
def is_number_literal (expression : List Char) : Bool :=
  let t := if expression.head? == some '-' then expression.tail else expression
  let d1 := t.takeWhile (·.isDigit)
  let r := t.dropWhile (·.isDigit)
  !d1.isEmpty &&
    (r.isEmpty ||
      (r.head? == some '.' && !r.tail.isEmpty && r.tail.all (·.isDigit)))

/-- `ExpressionParser.is_boolean_literal`. -/
def is_boolean_literal (expression : List Char) : Bool :=
  expression == ['t','r','u','e'] || expression == ['f','a','l','s','e']

/-- `ExpressionParser.is_null_literal`. -/
def is_null_literal (expression : List Char) : Bool :=
  expression == ['n','u','l','l']

/-- Value of a decimal digit string (Python `int` on a `\d+` match). -/
def parseNatDigits (ds : List Char) : Nat :=
  ds.foldl (fun a c => a * 10 + (c.toNat - 48)) 0

/-- Python `int(s)` on a matched `-?\d+` literal. -/
def parseIntLiteral (s : List Char) : Int :=
  if s.head? == some '-' then -(parseNatDigits s.tail : Int)
  else (parseNatDigits s : Nat)

/-- Python `float(s)` on a matched `-?\d+\.\d+` literal, as an exact
rational (the binary rounding of the Python float is not modelled). -/
def parseDoubleLiteral (s : List Char) : Rat :=
  let neg := s.head? == some '-'
  let t := if neg then s.tail else s
  let ip := t.takeWhile (·.isDigit)
  let fp := (t.dropWhile (·.isDigit)).tail
  let q : Rat := (parseNatDigits ip : Rat) + (parseNatDigits fp : Rat) / (10 : Rat) ^ fp.length
  if neg then -q else q

/-- Lookup in the embedded `dict`: Python `kv.get(key)` as an association
list (keys are unique in dictionaries built by the interpreter). -/
def objGet : List (List Char × Value) → List Char → Option Value
  | [], _ => none
  | (k, v) :: t, key => if k == key then some v else objGet t key

mutual

/-- Structural size of a value (the derived `sizeOf` of the nested
inductive is not executable); used only as a fuel bound. -/
def Value.size : Value → Nat
  | .null => 1
  | .bool _ => 1
  | .int _ => 1
  | .double _ => 1
  | .str _ => 1
  | .arr xs => 1 + Value.sizeList xs
  | .obj kv => 1 + Value.sizePairs kv

def Value.sizeList : List Value → Nat
  | [] => 0
  | v :: t => Value.size v + Value.sizeList t

def Value.sizePairs : List (List Char × Value) → Nat
  | [] => 0
  | (_, v) :: t => Value.size v + Value.sizePairs t

end

/-- Match of the regex `^([^.\[]+)\[(\d+)\](.*)$` used by
`PathEvaluator.evaluate`: a nonempty run of characters other than `.` and
`[`, a bracketed nonempty digit run, and the remaining text (the match
fails when a newline would keep `(.*)$` from reaching the end; the
unreachable vanishing-final-newline case of `$` is not modelled). -/
def arrayIndexMatch (path : List Char) : Option (List Char × List Char × List Char) :=
  let f := path.takeWhile (fun c => !(c == '.' || c == '['))
  if f.isEmpty then none
  else
    let r1 := path.drop f.length
    if r1.head? == some '[' then
      let ds := r1.tail.takeWhile (·.isDigit)
      if ds.isEmpty then none
      else
        let r2 := r1.tail.drop ds.length
        if r2.head? == some ']' then
          if (r2.tail).contains '\n' then none else some (f, ds, r2.tail)
        else none
    else none

/-- Loop of `PathEvaluator.evaluate` (`while path:`).  Fuel bounds the
number of iterations; every iteration either consumes path characters or
descends into the current value, so the caller's
`path.length + sizeOf current` is always enough. -/
def path_evaluate_go : Nat → List Char → Value → Value
  | 0, _, _ => .null
  | _ + 1, [], current => current
  | fuel + 1, c0 :: pr, current =>
    let path := c0 :: pr
    match arrayIndexMatch path with
      | some (fname, ds, remaining) =>
        match current with
        | .obj kv =>
          match objGet kv fname with
          | none => .null
          | some .null => .null
          | some v =>
            match v with
            | .arr xs =>
              match xs.get? (parseNatDigits ds) with
              | some e => path_evaluate_go fuel (remaining.dropWhile (· == '.')) e
              | none => .null
            | _ => .null
        | _ => .null
      | none =>
        let dotPos := path.findIdx? (· == '.')
        let brPos := path.findIdx? (· == '[')
        match dotPos, brPos with
        | none, none =>
          match current with
          | .obj kv => (objGet kv path).getD .null
          | _ => .null
        | _, _ =>
          let ns :=
            match dotPos, brPos with
            | some d, some b => min d b
            | some d, none => d
            | none, some b => b
            | none, none => 0
          match current with
          | .obj kv =>
            match objGet kv (path.take ns) with
            | none => .null
            | some .null => .null
            | some v =>
              if dotPos == some ns then path_evaluate_go fuel (path.drop (ns + 1)) v
              else path_evaluate_go fuel (path.drop ns) v
          | _ => .null

/-- `PathEvaluator.evaluate`: `.` returns the context, otherwise the
leading dot is stripped and the segment loop walks the value.  Total:
never raises, any mismatch yields `Value.null`. -/
def path_evaluate (expression : List Char) (context : Value) : Value :=
  if expression == ['.'] then context
  else path_evaluate_go (expression.length + context.size) expression.tail context

/-- Is this value Python `None`. -/
def Value.isNull : Value → Bool
  | .null => true
  | _ => false

/-- Python `isinstance(v, str)`. -/
def Value.isStr : Value → Bool
  | .str _ => true
  | _ => false

/-- Is this value a float. -/
def Value.isDouble : Value → Bool
  | .double _ => true
  | _ => false

/-- Python `isinstance(v, (int, float))` — true for booleans as well,
since `bool` is a subclass of `int`. -/
def Value.isPyNumber : Value → Bool
  | .int _ => true
  | .double _ => true
  | .bool _ => true
  | _ => false

/-- The numeric (rational) content of a Python number, with `True = 1`,
`False = 0`; `none` for non-numbers. -/
def numQ? : Value → Option Rat
  | .int n => some (n : Rat)
  | .double q => some q
  | .bool b => some (if b then 1 else 0)
  | _ => none

mutual

/-- Python `==` on embedded values: `None` equals only `None`, numbers
(including booleans) compare by numeric value, strings by content, lists
elementwise, dicts by key set and values; any cross-family comparison is
`False`. -/
def pyEq : Value → Value → Bool
  | .null, .null => true
  | .str a, .str b => a == b
  | .arr a, .arr b => pyEqList a b
  | .obj a, .obj b => a.length == b.length && pyEqObj a b
  | l, r =>
    match numQ? l, numQ? r with
    | some x, some y => x == y
    | _, _ => false

def pyEqList : List Value → List Value → Bool
  | [], [] => true
  | x :: xs, y :: ys => pyEq x y && pyEqList xs ys
  | _, _ => false

def pyEqObj : List (List Char × Value) → List (List Char × Value) → Bool
  | [], _ => true
  | (k, v) :: t, b =>
    (match objGet b k with
     | some w => pyEq v w
     | none => false) && pyEqObj t b

end

/-- The six comparison operators of the operator evaluator. -/
inductive CmpOp where
  | ge | le | gt | lt | eq | ne
  deriving Repr, DecidableEq

/-- Whether the operator is one of `<`, `<=`, `>`, `>=`. -/
def CmpOp.isOrdering : CmpOp → Bool
  | .ge | .le | .gt | .lt => true
  | _ => false

/-- The operator text (`">="`, …). -/
def CmpOp.text : CmpOp → List Char
  | .ge => ['>', '=']
  | .le => ['<', '=']
  | .gt => ['>']
  | .lt => ['<']
  | .eq => ['=', '=']
  | .ne => ['!', '=']

/-- Apply an ordering operator to an `Ordering` outcome. -/
def applyOpOrd : CmpOp → Ordering → Bool
  | .ge, o => o != .lt
  | .le, o => o != .gt
  | .gt, o => o == .gt
  | .lt, o => o == .lt
  | .eq, o => o == .eq
  | .ne, o => o != .eq

/-- Apply an ordering operator to two rationals. -/
def applyOpRat : CmpOp → Rat → Rat → Bool
  | .ge, x, y => x ≥ y
  | .le, x, y => x ≤ y
  | .gt, x, y => x > y
  | .lt, x, y => x < y
  | .eq, x, y => x == y
  | .ne, x, y => x != y

/-- Lexicographic comparison of Python strings (by code point). -/
def charListCmp : List Char → List Char → Ordering
  | [], [] => .eq
  | [], _ :: _ => .lt
  | _ :: _, [] => .gt
  | a :: as', b :: bs =>
    if a < b then .lt
    else if b < a then .gt
    else charListCmp as' bs

mutual

/-- Python rich comparison for the ordering operators, `none` standing
for `TypeError`: numbers (with booleans) compare by value, strings
lexicographically, lists lexicographically (skipping `==`-equal heads,
comparing the first differing pair with the operator, else the lengths);
everything else — including any comparison involving `None` or dicts —
raises. -/
def pyRichCmp : CmpOp → Value → Value → Option Bool
  | op, .str a, .str b => some (applyOpOrd op (charListCmp a b))
  | op, .arr a, .arr b => pyRichCmpList op a b
  | op, l, r =>
    match numQ? l, numQ? r with
    | some x, some y => some (applyOpRat op x y)
    | _, _ => none

def pyRichCmpList : CmpOp → List Value → List Value → Option Bool
  | op, [], [] => some (applyOpOrd op .eq)
  | op, [], _ :: _ => some (applyOpOrd op .lt)
  | op, _ :: _, [] => some (applyOpOrd op .gt)
  | op, x :: xs, y :: ys =>
    if pyEq x y then pyRichCmpList op xs ys else pyRichCmp op x y

end

/-- `OperatorEvaluator._evaluate_comparison`, value level: `==`/`!=` use
Python equality; for the ordering operators a `None` operand yields
`False`, and a `TypeError` (incomparable operands) is caught and yields
`False`. -/
def evaluate_comparison (op : CmpOp) (left_val right_val : Value) : Bool :=
  match op with
  | .eq => pyEq left_val right_val
  | .ne => !pyEq left_val right_val
  | _ =>
    if left_val.isNull || right_val.isNull then false
    else (pyRichCmp op left_val right_val).getD false

/-- Decimal digits of a natural number, most significant first;
`natToDecimal 0 = "0"`. -/
def natToDecimalAux : Nat → Nat → List Char
  | 0, _ => []
  | fuel + 1, n =>
    if n = 0 then []
    else natToDecimalAux fuel (n / 10) ++ [Nat.digitChar (n % 10)]

/-- Decimal rendering of a natural number. -/
def natToDecimal (n : Nat) : List Char :=
  if n = 0 then ['0'] else natToDecimalAux (n + 1) n

/-- Decimal rendering of an integer (Python `str(int)`). -/
def intToDecimal (n : Int) : List Char :=
  if n < 0 then '-' :: natToDecimal n.natAbs else natToDecimal n.natAbs

/-- Fractional decimal digits of `q ∈ [0,1)`, up to `fuel` digits. -/
def fracDigits : Nat → Rat → List Char
  | 0, _ => []
  | fuel + 1, q =>
    if q = 0 then []
    else
      let d := ⌊q * 10⌋.toNat
      Char.ofNat (48 + d % 10) :: fracDigits fuel (q * 10 - (d : Rat))

/-- Python `str(float)` on the exact-rational model.  Faithful on floats
whose shortest decimal form is the parsed literal (all float values the
claims evaluate); for other rationals a 17-digit expansion is produced. -/
def pyFloatStr (q : Rat) : List Char :=
  let sign : List Char := if q < 0 then ['-'] else []
  let a := |q|
  let ip := ⌊a⌋.toNat
  let fr := a - (ip : Rat)
  sign ++ natToDecimal ip ++ '.' :: (if fr = 0 then ['0'] else fracDigits 17 fr)

mutual

/-- Python `repr` of an embedded value (`str` and `repr` agree on
everything but strings).  Escaping inside string reprs is not modelled;
no claim evaluates it. -/
def pyRepr : Value → List Char
  | .null => ['N','o','n','e']
  | .bool b => if b then ['T','r','u','e'] else ['F','a','l','s','e']
  | .int n => intToDecimal n
  | .double q => pyFloatStr q
  | .str s => '\'' :: s ++ ['\'']
  | .arr xs => '[' :: pyReprList xs ++ [']']
  | .obj kv => '{' :: pyReprPairs kv ++ ['}']

def pyReprList : List Value → List Char
  | [] => []
  | [v] => pyRepr v
  | v :: t => pyRepr v ++ ',' :: ' ' :: pyReprList t

def pyReprPairs : List (List Char × Value) → List Char
  | [] => []
  | [(k, v)] => '\'' :: k ++ '\'' :: ':' :: ' ' :: pyRepr v
  | (k, v) :: t => '\'' :: k ++ '\'' :: ':' :: ' ' :: pyRepr v ++ ',' :: ' ' :: pyReprPairs t

end

/-- Python `str()` of an embedded value. -/
def pyStr : Value → List Char
  | .str s => s
  | v => pyRepr v

/-- The display form used by string concatenation in
`OperatorEvaluator._evaluate_addition`: `str(val if val is not None else "")`. -/
def pyStrOrEmpty : Value → List Char
  | .null => []
  | v => pyStr v

/-- One step of the numeric-sum loop of
`OperatorEvaluator._evaluate_addition` (`result += val` skipping `None`):
`result` starts as the int `0` and becomes a float as soon as a float is
added; booleans add as `1`/`0`.  The catch-all arm is unreachable under
the branch guard. -/
def additionStep (acc : Bool × Rat) (v : Value) : Bool × Rat :=
  match v with
  | .null => acc
  | .int n => (acc.1, acc.2 + (n : Rat))
  | .double q => (true, acc.2 + q)
  | .bool b => (acc.1, acc.2 + if b then 1 else 0)
  | _ => acc

/-- The string-concatenation loop of
`OperatorEvaluator._evaluate_addition` (`result += str(val if ...)`). -/
def concatDisplayFold (values : List Value) : List Char :=
  values.foldl (fun acc v => acc ++ pyStrOrEmpty v) []

/-- `OperatorEvaluator._evaluate_addition` on the evaluated part values
(the code path taken when the expression split into at least two parts):
any string part forces concatenation of display forms; otherwise, if
every non-`None` part satisfies `isinstance(v, (int, float))` — which
booleans do — the parts are summed starting from the int `0`, a float
part making the result a float; otherwise display forms are
concatenated. -/
def evaluate_addition_values (values : List Value) : Value :=
  if values.any Value.isStr then
    .str (concatDisplayFold values)
  else if (values.filter (fun v => !v.isNull)).all Value.isPyNumber then
    let s := values.foldl additionStep (false, 0)
    if s.1 then .double s.2 else .int s.2.num
  else
    .str (concatDisplayFold values)

/-- Error raised by the embedded interpreter: Python `ValueError` /
`TypeError`, plus fuel exhaustion (an artifact of the embedding — the
Python recursion is unbounded; theorems supply sufficient fuel). -/
inductive EvalErr where
  | valueError (msg : List Char)
  | typeError (msg : List Char)
  | outOfFuel
  deriving Repr

/-- Evaluation result monad (Python exception propagation). -/
abbrev EvalM := Except EvalErr

/-- `SizeFunction.execute`. -/
def size_function (value : Value) : Value :=
  match value with
  | .arr xs => .int xs.length
  | .obj kv => .int kv.length
  | .str s => .int s.length
  | _ => .int 0

/-- `StringFunction.execute`. -/
def string_function (value : Value) : Value :=
  match value with
  | .null => .str []
  | v => .str (pyStr v)

/-- Python `float(s)` on a string: optional sign, decimal digits with an
optional fraction (surrounding whitespace allowed); other accepted forms
(exponents, `inf`, `nan`) are not used by any claim and are not
modelled. -/
def pyFloatParse? (s : List Char) : Option Rat :=
  let t := (stripChars s)
  let neg := t.head? == some '-'
  let t := if t.head? == some '-' || t.head? == some '+' then t.tail else t
  let ip := t.takeWhile (·.isDigit)
  let r := t.drop ip.length
  let body? : Option Rat :=
    match r with
    | [] => if ip.isEmpty then none else some (parseNatDigits ip : Rat)
    | '.' :: fp =>
      if fp.all (·.isDigit) && !(ip.isEmpty && fp.isEmpty) then
        some ((parseNatDigits ip : Rat) + (parseNatDigits fp : Rat) / (10 : Rat) ^ fp.length)
      else none
    | _ => none
  body?.map (fun q => if neg then -q else q)

/-- `NumberFunction.execute`: numbers (booleans included) pass through;
strings convert via `int` when all digits else `float`, `0` on failure;
everything else is `0`. -/
def number_function (value : Value) : Value :=
  match value with
  | .bool _ => value
  | .int _ => value
  | .double _ => value
  | .str s =>
    if !s.isEmpty && s.all (·.isDigit) then .int (parseNatDigits s : Nat)
    else
      match pyFloatParse? s with
      | some q => .double q
      | none => .int 0
  | _ => .int 0

/-- `BooleanFunction.execute`. -/
def boolean_function (value : Value) : Value :=
  match value with
  | .bool _ => value
  | .str s =>
    .bool (decide (s.map Char.toLower ∈
      [['t','r','u','e'], ['1'], ['y','e','s'], ['o','n']]))
  | .int n => .bool (n ≠ 0)
  | .double q => .bool (q ≠ 0)
  | .null => .bool false
  | .arr xs => .bool (!xs.isEmpty)
  | .obj kv => .bool (!kv.isEmpty)

/-- Python 3 `round` to an integer: nearest, ties to the even integer. -/
def pyRound (q : Rat) : Int :=
  let f := ⌊q⌋
  let frac := q - (f : Rat)
  if frac < 1 / 2 then f
  else if frac > 1 / 2 then f + 1
  else if f % 2 == 0 then f else f + 1

/-- `RoundFunction.execute`: `round(float(value))`.  `float()` of a
non-numeric, non-string value raises `TypeError`; an unparsable string
raises `ValueError`. -/
def round_function (value : Value) : EvalM Value :=
  match value with
  | .int n => .ok (.int (pyRound (n : Rat)))
  | .double q => .ok (.int (pyRound q))
  | .bool b => .ok (.int (pyRound (if b then 1 else 0)))
  | .str s =>
    match pyFloatParse? s with
    | some q => .ok (.int (pyRound q))
    | none => .error (.valueError ("could not convert string to float: ".data ++ s))
  | _ => .error (.typeError "float() argument must be a string or a real number".data)

/-- Names in the registered function table (`BUILTIN_FUNCTIONS`). -/
def builtinNames : List (List Char) :=
  [['s','i','z','e'], ['s','t','r','i','n','g'], ['n','u','m','b','e','r'],
   ['b','o','o','l','e','a','n'], ['r','o','u','n','d']]

/-- `func.execute(*args)` for the registered functions: each builtin
takes exactly one argument, any other count raising `TypeError`. -/
def call_builtin (name : List Char) (args : List Value) : EvalM Value :=
  match args with
  | [v] =>
    if name == ['s','i','z','e'] then .ok (size_function v)
    else if name == ['s','t','r','i','n','g'] then .ok (string_function v)
    else if name == ['n','u','m','b','e','r'] then .ok (number_function v)
    else if name == ['b','o','o','l','e','a','n'] then .ok (boolean_function v)
    else if name == ['r','o','u','n','d'] then round_function v
    else .error (.typeError "unknown builtin".data)
  | _ => .error (.typeError "execute() takes 2 positional arguments".data)

/-- Truthiness of the evaluated `if` condition: the Python code branches
on `if condition:`, i.e. `bool(condition)` — `None`, `False`, zero and
empty containers are falsy, everything else truthy. -/
def pyTruthy : Value → Bool
  | .null => false
  | .bool b => b
  | .int n => n ≠ 0
  | .double q => q ≠ 0
  | .str s => !s.isEmpty
  | .arr xs => !xs.isEmpty
  | .obj kv => !kv.isEmpty

/-- Loop of `OperatorEvaluator._has_top_level_operator`: scan the
characters tracking the in-string flag and bracket depth; an operator is
found when one of `ops` starts at the current position with the flag off
and depth zero, the position's character being neither a quote nor a
bracket. -/
def has_top_level_operator_go (ops : List (List Char)) :
    List Char → Option Char → Int → Bool
  | [], _, _ => false
  | c :: rs, none, depth =>
    if c == '"' || c == '\'' then
      has_top_level_operator_go ops rs (some c) depth
    else if openingChars.contains c then
      has_top_level_operator_go ops rs none (depth + 1)
    else if closingChars.contains c then
      has_top_level_operator_go ops rs none (depth - 1)
    else if depth == 0 && ops.any (fun op => op.isPrefixOf (c :: rs)) then
      true
    else
      has_top_level_operator_go ops rs none depth
  | c :: rs, some q, depth =>
    if c == q then has_top_level_operator_go ops rs none depth
    else has_top_level_operator_go ops rs (some q) depth

/-- `OperatorEvaluator._has_top_level_operator`. -/
def has_top_level_operator (expression : List Char) (ops : List (List Char)) : Bool :=
  has_top_level_operator_go ops expression none 0

/-- The spaced text of an operator, `" op "`, as it is searched for in
expressions. -/
def spacedOpText (op : CmpOp) : List Char :=
  ' ' :: op.text ++ [' ']

/-- The comparison operators in the order the evaluator checks them. -/
def comparisonOpOrder : List CmpOp :=
  [.ge, .le, .gt, .lt, .eq, .ne]

/-- `OperatorEvaluator.can_evaluate`: refuse object/array constructors
and control flow, then look for a top-level comparison or addition
operator. -/
def can_evaluate_operator (expression : List Char) : Bool :=
  if expression.head? == some '{' || expression.head? == some '[' then false
  else if ['i','f'].isPrefixOf expression || ['f','o','r'].isPrefixOf expression then false
  else
    has_top_level_operator expression (comparisonOpOrder.map spacedOpText) ||
      has_top_level_operator expression [[' ', '+', ' ']]

/-- Evaluate a list of subexpressions in order with the supplied
evaluation function, propagating the first error. -/
def evalEach (f : List Char → EvalM Value) : List (List Char) → EvalM (List Value)
  | [] => .ok []
  | e :: es => do
    let v ← f e
    let vs ← evalEach f es
    .ok (v :: vs)

/-- `OperatorEvaluator._evaluate_comparison`, expression level: split at
the first occurrence of `" op "` anywhere in the expression (Python
`str.split(sep, 1)`), evaluate both sides, compare. -/
def evaluate_comparison_expr (recur : List Char → EvalM Value) (expression : List Char)
    (op : CmpOp) : EvalM Value :=
  match splitFirstSub expression (spacedOpText op) with
  | some (left_expr, right_expr) => do
    let left_val ← recur (stripChars left_expr)
    let right_val ← recur (stripChars right_expr)
    .ok (.bool (evaluate_comparison op left_val right_val))
  | none => .error (.valueError "not enough values to unpack".data)

/-- `OperatorEvaluator._evaluate_addition`: split on top-level
space-flanked `+`; a single part is evaluated directly, otherwise all
parts are evaluated and combined by `evaluate_addition_values`. -/
def evaluate_addition (recur : List Char → EvalM Value) (expression : List Char) :
    EvalM Value :=
  match split_addition_parts expression with
  | [p] => recur (stripChars p)
  | parts => do
    let values ← evalEach recur (parts.map stripChars)
    .ok (evaluate_addition_values values)

/-- `OperatorEvaluator.evaluate`: check each comparison operator in order
by plain substring containment (`" op " in expression` — not restricted
to top level), then addition. -/
def evaluate_operator (recur : List Char → EvalM Value) (expression : List Char) :
    EvalM Value :=
  if containsSub expression (spacedOpText .ge) then evaluate_comparison_expr recur expression .ge
  else if containsSub expression (spacedOpText .le) then evaluate_comparison_expr recur expression .le
  else if containsSub expression (spacedOpText .gt) then evaluate_comparison_expr recur expression .gt
  else if containsSub expression (spacedOpText .lt) then evaluate_comparison_expr recur expression .lt
  else if containsSub expression (spacedOpText .eq) then evaluate_comparison_expr recur expression .eq
  else if containsSub expression (spacedOpText .ne) then evaluate_comparison_expr recur expression .ne
  else if containsSub expression [' ', '+', ' '] then evaluate_addition recur expression
  else .error (.valueError ("Invalid operator expression: ".data ++ expression))

/-- Match of `if\s*\(\s*([^)]+)\s*\)` at the start: the condition text is
everything between `(` and the first `)` (nonempty). Returns the
condition and the text after `)`. -/
def parseParenHead (kw : List Char) (e : List Char) : Option (List Char × List Char) :=
  if kw.isPrefixOf e then
    let r0 := (e.drop kw.length).dropWhile pyIsSpace
    if r0.head? == some '(' then
      let inner := r0.tail.takeWhile (· != ')')
      if inner.isEmpty then none
      else
        let r1 := r0.tail.drop inner.length
        if r1.head? == some ')' then some (inner, r1.tail) else none
    else none
  else none

/-- Match of the separator `\s+else\s+(.+)` at the start of `t`
(`.` does not cross a newline): maximal whitespace, `else`, then at
least one whitespace character and a nonempty rest starting with a
non-newline character (Python backtracks the second whitespace run from
maximal until that holds).  Returns the else branch (up to a newline). -/
def elseSepAt (t : List Char) : Option (List Char) :=
  match t.head? with
  | some c =>
    if pyIsSpace c then
      let u0 := t.dropWhile pyIsSpace
      if ['e','l','s','e'].isPrefixOf u0 then
        let u := u0.drop 4
        match u.head? with
        | some d =>
          if pyIsSpace d then
            let wr := (u.takeWhile pyIsSpace).length
            let rest :=
              if wr < u.length then u.drop wr
              else if u.length ≥ 2 then u.drop (u.length - 1)
              else []
            if rest.isEmpty || rest.head? == some '\n' then none
            else some (rest.takeWhile (· != '\n'))
          else none
        | none => none
      else none
    else none
  | none => none

/-- Helper for `findElseSep`: `accRev` is the reversed then-part so far,
extended while no `else` separator starts at the current position. -/
def findElseSepGo : List Char → List Char → Option (List Char × List Char)
  | _, [] => none
  | accRev, c :: u0 =>
    match elseSepAt (c :: u0) with
    | some elseE => some (accRev.reverse, elseE)
    | none => if c == '\n' then none else findElseSepGo (c :: accRev) u0

/-- Scan for the lazy `(.+?)\s+else\s+(.+)` split: the shortest nonempty
newline-free then-part followed by an `else` separator. -/
def findElseSep : List Char → Option (List Char × List Char)
  | [] => none
  | c :: t0 =>
    if c == '\n' then none
    else findElseSepGo [c] t0

/-- The regex of `ControlFlowEvaluator._evaluate_if_expression`,
`if\s*\(\s*([^)]+)\s*\)\s*(.+?)\s+else\s+(.+)` (unanchored at the end and
with `.` not crossing newlines): condition, then-branch, else-branch.
All three are stripped by the caller, so the exact whitespace captured
into each group is immaterial. -/
def parse_if (expression : List Char) : Option (List Char × List Char × List Char) :=
  match parseParenHead ['i','f'] expression with
  | none => none
  | some (cond, afterParen) =>
    let t := afterParen.dropWhile pyIsSpace
    match findElseSep t with
    | none => none
    | some (thenE, elseE) => some (cond, thenE, elseE)

/-- The regex of `ControlFlowEvaluator._evaluate_for_loop`,
`for\s*\(\s*([^)]+)\s*\)\s*(.+)` (`.` not crossing newlines): the array
expression and the loop body (truncated at a newline). -/
def parse_for (expression : List Char) : Option (List Char × List Char) :=
  match parseParenHead ['f','o','r'] expression with
  | none => none
  | some (arrE, afterParen) =>
    let t := afterParen.dropWhile pyIsSpace
    let body := t.takeWhile (· != '\n')
    if body.isEmpty then none else some (arrE, body)

/-- Evaluate the loop body once per array element, the element becoming
the context (`ControlFlowEvaluator._evaluate_for_loop`). -/
def evalForEach (recur : Value → List Char → EvalM Value) (body : List Char) :
    List Value → EvalM (List Value)
  | [] => .ok []
  | item :: items => do
    let r ← recur item body
    let rs ← evalForEach recur body items
    .ok (r :: rs)

/-- `ControlFlowEvaluator._evaluate_if_expression`: parse, evaluate the
condition, branch on Python truthiness. -/
def evaluate_if_expression (recur : Value → List Char → EvalM Value)
    (expression : List Char) (context : Value) : EvalM Value :=
  match parse_if expression with
  | none => .error (.valueError "Invalid if expression syntax".data)
  | some (cond, thenE, elseE) => do
    let condition ← recur context (stripChars cond)
    if pyTruthy condition then recur context (stripChars thenE)
    else recur context (stripChars elseE)

/-- `ControlFlowEvaluator._evaluate_for_loop`. -/
def evaluate_for_loop (recur : Value → List Char → EvalM Value)
    (expression : List Char) (context : Value) : EvalM Value :=
  match parse_for expression with
  | none => .error (.valueError "Invalid for loop syntax".data)
  | some (arrE, body) => do
    let array_value ← recur context (stripChars arrE)
    match array_value with
    | .arr xs => do
      let results ← evalForEach recur (stripChars body) xs
      .ok (.arr results)
    | _ => .error (.valueError "For loop requires an array".data)

/-- `ControlFlowEvaluator.evaluate`. -/
def evaluate_control_flow (recur : Value → List Char → EvalM Value)
    (expression : List Char) (context : Value) : EvalM Value :=
  if ['i','f'].isPrefixOf expression then
    evaluate_if_expression recur expression context
  else if ['f','o','r'].isPrefixOf expression then
    evaluate_for_loop recur expression context
  else .error (.valueError ("Invalid control flow expression: ".data ++ expression))

/-- Variable scope: a Python dict from names to values, insertion
ordered; `dictSet` is `d[k] = v` (update in place, else append). -/
def dictSet (d : List (List Char × Value)) (k : List Char) (v : Value) :
    List (List Char × Value) :=
  match d with
  | [] => [(k, v)]
  | (k', v') :: t => if k' == k then (k, v) :: t else (k', v') :: dictSet t k v

/-- Front of the let regexes, `^let\s+(\w+)\s*=\s*`: the bound name and
the text after the match (after the maximal whitespace following `=`). -/
def parse_let_front (expression : List Char) : Option (List Char × List Char) :=
  if ['l','e','t'].isPrefixOf expression then
    let r0 := expression.drop 3
    match r0.head? with
    | some c =>
      if pyIsSpace c then
        let r1 := r0.dropWhile pyIsSpace
        let name := r1.takeWhile isWordChar
        if name.isEmpty then none
        else
          let r2 := (r1.drop name.length).dropWhile pyIsSpace
          if r2.head? == some '=' then some (name, r2.tail.dropWhile pyIsSpace)
          else none
      else none
    | none => none
  else none

/-- Match of the separator `\s+in\s+(.+)$` (DOTALL) at the start of `t`:
maximal whitespace, `in`, then at least one whitespace character and a
nonempty rest (Python backtracks the second run from maximal until the
rest is nonempty). -/
def inSepAt (t : List Char) : Option (List Char) :=
  match t.head? with
  | some c =>
    if pyIsSpace c then
      let u0 := t.dropWhile pyIsSpace
      if ['i','n'].isPrefixOf u0 then
        let u := u0.drop 2
        match u.head? with
        | some d =>
          if pyIsSpace d then
            let wr := (u.takeWhile pyIsSpace).length
            if wr < u.length then some (u.drop wr)
            else if u.length ≥ 2 then some (u.drop (u.length - 1))
            else none
          else none
        | none => none
      else none
    else none
  | none => none

/-- Helper for `findInSep`: `accRev` is the reversed value part so far,
extended while no `in` separator starts at the current position. -/
def findInSepGo : List Char → List Char → Option (List Char × List Char)
  | _, [] => none
  | accRev, c :: u0 =>
    match inSepAt (c :: u0) with
    | some restE => some (accRev.reverse, restE)
    | none => findInSepGo (c :: accRev) u0

/-- Scan for the lazy `(.+?)\s+in\s+(.+)$` split of the inline let
syntax: shortest nonempty value part followed by an `in` separator. -/
def findInSep : List Char → Option (List Char × List Char)
  | [] => none
  | c :: t0 => findInSepGo [c] t0

/-- `VariableEvaluator._evaluate_variable_reference` (regex `^\$(\w+)`):
the name is the maximal word-character run after `$`; local scope is
consulted before the global scope; an unbound name raises. -/
def evaluate_variable_reference (expression : List Char)
    (vars globals : List (List Char × Value)) : EvalM Value :=
  if expression.head? == some '$' then
    let var_name := expression.tail.takeWhile isWordChar
    if var_name.isEmpty then
      .error (.valueError ("Invalid variable reference: ".data ++ expression))
    else
      match objGet vars var_name with
      | some v => .ok v
      | none =>
        match objGet globals var_name with
        | some v => .ok v
        | none => .error (.valueError ("Undefined variable: $".data ++ var_name))
  else .error (.valueError ("Invalid variable reference: ".data ++ expression))

/-- `VariableEvaluator._evaluate_let_statement`: the inline
`let name = value in body` syntax binds into a copy of the local scope
and evaluates the body there; the flowed fallback splits the tail with
`split_let_expression`, returning the bound value itself when the tail
is empty. -/
def evaluate_let_statement (recur : List (List Char × Value) → List Char → EvalM Value)
    (expression : List Char) (vars : List (List Char × Value)) : EvalM Value :=
  match parse_let_front expression with
  | none =>
    .error (.valueError "Invalid let syntax. Use: let variable = expression in expression".data)
  | some (var_name, after) =>
    match findInSep after with
    | some (value_expr, rest_expr) => do
      let value ← recur vars (stripChars value_expr)
      recur (dictSet vars var_name value) (stripChars rest_expr)
    | none => do
      let s := split_let_expression after
      let value ← recur vars (stripChars s.1)
      if (stripChars s.2).isEmpty then .ok value
      else recur (dictSet vars var_name value) (stripChars s.2)

/-- `VariableEvaluator.evaluate`. -/
def evaluate_variable (recur : List (List Char × Value) → List Char → EvalM Value)
    (expression : List Char) (vars globals : List (List Char × Value)) : EvalM Value :=
  if expression.head? == some '$' then
    evaluate_variable_reference expression vars globals
  else if ['l','e','t',' '].isPrefixOf expression then
    evaluate_let_statement recur expression vars
  else .error (.valueError ("Invalid variable expression: ".data ++ expression))

/-- Strip matching outer quotes from an object key
(`ObjectEvaluator.evaluate`). -/
def unquoteKey (key : List Char) : List Char :=
  if key.head? == some '"' && key.getLast? == some '"' then key.tail.dropLast
  else if key.head? == some '\'' && key.getLast? == some '\'' then key.tail.dropLast
  else key

/-- Evaluate object pairs in order, building the result dict
(`ObjectEvaluator.evaluate` loop; a pair without `:` raises, the key is
unquoted, duplicate keys last-win in place). -/
def evalObjectPairs (recur : List Char → EvalM Value) :
    List (List Char) → List (List Char × Value) → EvalM Value
  | [], result => .ok (.obj result)
  | pair :: rest, result =>
    match splitFirstSub pair [':'] with
    | none => .error (.valueError ("Invalid object pair: ".data ++ pair))
    | some (key_part, value_part) => do
      let value ← recur (stripChars value_part)
      evalObjectPairs recur rest (dictSet result (unquoteKey (stripChars key_part)) value)

/-- `ObjectEvaluator.evaluate`. -/
def evaluate_object (recur : List Char → EvalM Value) (expression : List Char) :
    EvalM Value :=
  let content := stripChars (expression.tail.dropLast)
  if content.isEmpty then .ok (.obj [])
  else evalObjectPairs recur (split_object_pairs content) []

/-- `ArrayEvaluator.evaluate`. -/
def evaluate_array (recur : List Char → EvalM Value) (expression : List Char) :
    EvalM Value :=
  let content := stripChars (expression.tail.dropLast)
  if content.isEmpty then .ok (.arr [])
  else do
    let elements ← evalEach recur ((split_array_elements content).map stripChars)
    .ok (.arr elements)

/-- The regex of `FunctionEvaluator`, `^(\w+)\s*\(([^)]*)\)$`: function
name and argument text (which cannot contain `)`). -/
def parse_function_call (expression : List Char) : Option (List Char × List Char) :=
  let name := expression.takeWhile isWordChar
  if name.isEmpty then none
  else
    let r0 := (expression.drop name.length).dropWhile pyIsSpace
    if r0.head? == some '(' then
      let args := r0.tail.takeWhile (· != ')')
      let r1 := r0.tail.drop args.length
      if r1.head? == some ')' && r1.tail.isEmpty then some (name, args) else none
    else none

/-- `FunctionEvaluator.evaluate`: unknown names raise; arguments are
split, stripped, evaluated eagerly, and passed to the builtin. -/
def evaluate_function_call (recur : List Char → EvalM Value) (expression : List Char) :
    EvalM Value :=
  match parse_function_call expression with
  | none => .error (.valueError ("Invalid function call: ".data ++ expression))
  | some (func_name, args_str) =>
    if !(builtinNames.contains func_name) then
      .error (.valueError ("Unknown function: ".data ++ func_name))
    else do
      let args ←
        if (stripChars args_str).isEmpty then .ok []
        else evalEach recur ((split_function_args args_str).map stripChars)
      call_builtin func_name args

/-- `LiteralEvaluator.evaluate`. -/
def evaluate_literal (expression : List Char) : EvalM Value :=
  if is_string_literal expression then .ok (.str expression.tail.dropLast)
  else if is_number_literal expression then
    if expression.contains '.' then .ok (.double (parseDoubleLiteral expression))
    else .ok (.int (parseIntLiteral expression))
  else if expression == ['t','r','u','e'] then .ok (.bool true)
  else if expression == ['f','a','l','s','e'] then .ok (.bool false)
  else if expression == ['n','u','l','l'] then .ok .null
  else .error (.valueError ("Invalid literal expression: ".data ++ expression))

/-- `LiteralEvaluator.can_evaluate`. -/
def can_evaluate_literal (expression : List Char) : Bool :=
  is_string_literal expression || is_number_literal expression ||
    is_boolean_literal expression || is_null_literal expression

/-- The regex of the multi-line preprocessing, `^let\s+(\w+)\s*=\s*(.+)$`
applied to a single stripped line. -/
def parse_multiline_let (line : List Char) : Option (List Char × List Char) :=
  match parse_let_front line with
  | some (name, after) => if after.isEmpty then none else some (name, after)
  | none => none

/-- Evaluate the collected `let` lines in order, each binding extending
the variable dict seen by the later ones (`_evaluate_multiline_expression`;
a line failing the regex is silently skipped). -/
def foldLetLines (recur : List (List Char × Value) → List Char → EvalM Value) :
    List (List Char) → List (List Char × Value) → EvalM (List (List Char × Value))
  | [], vars => .ok vars
  | stmt :: rest, vars =>
    match parse_multiline_let stmt with
    | none => foldLetLines recur rest vars
    | some (var_name, value_expr) => do
      let value ← recur vars (stripChars value_expr)
      foldLetLines recur rest (dictSet vars var_name value)

/-- Join lines with newlines (Python `"\n".flatten`). -/
def joinLines : List (List Char) → List Char
  | [] => []
  | [l] => l
  | l :: rest => l ++ '\n' :: joinLines rest

/-- `JSLTService._evaluate_multiline_expression`: strip each line,
collect the `let` lines and the other nonempty lines, evaluate the `let`
bindings in order, then the remaining lines joined by newlines (or
`None` when there are none). -/
def evaluate_multiline (recur : List (List Char × Value) → List Char → EvalM Value)
    (expression : List Char) (vars : List (List Char × Value)) : EvalM Value := do
  let lines := (splitChar '\n' expression).map stripChars
  let let_statements := lines.filter (fun l => ['l','e','t',' '].isPrefixOf l)
  let object_lines := lines.filter (fun l => !(['l','e','t',' '].isPrefixOf l) && !l.isEmpty)
  let current_variables ← foldLetLines recur let_statements vars
  let remaining_expr := joinLines object_lines
  if remaining_expr.isEmpty then .ok .null
  else recur current_variables remaining_expr

/-- `JSLTService._evaluate_expression`: strip; empty text evaluates to
`None`; a text containing both `"let "` and a newline goes through
multi-line preprocessing; otherwise the evaluators are consulted in
priority order (variable/let 100, control flow 90, operator 80, object
70, array 70, function 60, path 50, literal 40), the first whose
`can_evaluate` fires handling the expression; otherwise
`Invalid expression` is raised.  `globals` is the service-level
`self.variables` dict, which no evaluation step writes. -/
def evaluate_expression : Nat → List (List Char × Value) → Value →
    List (List Char × Value) → List Char → EvalM Value
  | 0, _, _, _, _ => .error .outOfFuel
  | fuel + 1, globals, context, vars, expr =>
    let expression := stripChars expr
    if expression.isEmpty then .ok .null
    else if containsSub expression ['l','e','t',' '] && expression.contains '\n' then
      evaluate_multiline (fun vars e => evaluate_expression fuel globals context vars e)
        expression vars
    else if expression.head? == some '$' || ['l','e','t',' '].isPrefixOf expression then
      evaluate_variable (fun vars e => evaluate_expression fuel globals context vars e)
        expression vars globals
    else if ['i','f'].isPrefixOf expression || ['f','o','r'].isPrefixOf expression then
      evaluate_control_flow (fun ctx e => evaluate_expression fuel globals ctx vars e)
        expression context
    else if can_evaluate_operator expression then
      evaluate_operator (fun e => evaluate_expression fuel globals context vars e)
        expression
    else if expression.head? == some '{' && expression.getLast? == some '}' then
      evaluate_object (fun e => evaluate_expression fuel globals context vars e)
        expression
    else if expression.head? == some '[' && expression.getLast? == some ']' then
      evaluate_array (fun e => evaluate_expression fuel globals context vars e)
        expression
    else if (parse_function_call expression).isSome then
      evaluate_function_call (fun e => evaluate_expression fuel globals context vars e)
        expression
    else if expression.head? == some '.' then
      .ok (path_evaluate expression context)
    else if can_evaluate_literal expression then
      evaluate_literal expression
    else .error (.valueError ("Invalid expression: ".data ++ expression))

/-- The envelope returned by `JSLTService.transform` (timing omitted). -/
structure TransformResult where
  success : Bool
  output : Option Value
  error : Option (List Char)
  deriving Repr

/-- Python `str(e)` of a raised error. -/
def renderErr : EvalErr → List Char
  | .valueError msg => msg
  | .typeError msg => msg
  | .outOfFuel => "out of fuel".data

/-- `JSLTService.transform`: reset the global variable dict to empty,
evaluate the stripped program against the input with an empty local
scope, and wrap the outcome. -/
def transform (fuel : Nat) (input_json : Value) (jslt_expression : List Char) :
    TransformResult :=
  match evaluate_expression fuel [] input_json [] (stripChars jslt_expression) with
  | .ok result => ⟨true, some result, none⟩
  | .error e => ⟨false, none, some (renderErr e)⟩

/-- A path segment of the specification's path grammar: a field access or
an array index. -/
inductive PathStep where
  | field (name : List Char)
  | index (i : Nat)
  deriving Repr

/-- The concrete text of one path segment (`".name"` / `"[i]"`); a path
expression is the concatenation of its segments' texts. -/
def renderPathSeg : PathStep → List Char
  | .field n => '.' :: n
  | .index i => '[' :: (natToDecimal i ++ [']'])

/-- The path expression denoting a segment list (`"."` for the empty
list). -/
def renderPathSteps (steps : List PathStep) : List Char :=
  if steps.isEmpty then ['.'] else (steps.map renderPathSeg).flatten

/-- The specification's path resolver (spec §4.3), stated independently
of the code: walk the segments, a name segment looking up in an object
and an index segment indexing an array, any shape mismatch or missing
field yielding `Null`. -/
def specResolvePath : List PathStep → Value → Value
  | [], v => v
  | .field n :: rest, v =>
    match v with
    | .obj kv =>
      match objGet kv n with
      | some w => specResolvePath rest w
      | none => .null
    | _ => .null
  | .index i :: rest, v =>
    match v with
    | .arr xs =>
      match xs.get? i with
      | some w => specResolvePath rest w
      | none => .null
    | _ => .null

/-- A path group in the shape the code's loop actually consumes per
iteration: a bare name segment, or a name directly followed by one
index (`name[i]`). -/
inductive PathGroup where
  | gField (name : List Char)
  | gFieldIdx (name : List Char) (i : Nat)
  deriving Repr

/-- The segments of one group. -/
def pathGroupSteps : PathGroup → List PathStep
  | .gField n => [.field n]
  | .gFieldIdx n i => [.field n, .index i]

/-- The segments of a group list. -/
def pathGroupsSteps (gs : List PathGroup) : List PathStep :=
  (gs.map pathGroupSteps).flatten

/-- Well-formed group: the name is a nonempty identifier
(word characters). -/
def wfPathGroup : PathGroup → Bool
  | .gField n => !n.isEmpty && n.all isWordChar
  | .gFieldIdx n _ => !n.isEmpty && n.all isWordChar

/-- The rendered path with the leading dot removed, as the code's loop
receives it. -/
def renderAfterDot : List PathGroup → List Char
  | [] => []
  | .gField n :: rest =>
    n ++ (if rest.isEmpty then [] else '.' :: renderAfterDot rest)
  | .gFieldIdx n i :: rest =>
    n ++ '[' :: (natToDecimal i ++ ']' ::
      (if rest.isEmpty then [] else '.' :: renderAfterDot rest))

/-- Is the value an `Int` or a `Double` (the claim's reading of
"numeric", excluding booleans). -/
def Value.isIntOrDouble : Value → Bool
  | .int _ => true
  | .double _ => true
  | _ => false

/-- Concatenation of display forms (`Null` as the empty string). -/
def concatDisplay (values : List Value) : List Char :=
  (values.map pyStrOrEmpty).flatten

/-- Rational contribution of a part to a numeric sum, booleans counting
as `1`/`0`, `Null` as `0`. -/
def addContribQ : Value → Rat
  | .int n => (n : Rat)
  | .double q => q
  | .bool b => if b then 1 else 0
  | _ => 0

/-- Integer contribution of a part to an integer-only sum. -/
def addContribZ : Value → Int
  | .int n => n
  | .bool b => if b then 1 else 0
  | _ => 0

/-- The addition result as the claim literally states it: a string part
forces concatenation of display forms; else, when all non-null parts are
numeric in the narrow sense (`Int`/`Double`), their sum (a double as
soon as any part is a double, else an integer); else concatenation. -/
def spec_addition_claimed (values : List Value) : Value :=
  if values.any Value.isStr then .str (concatDisplay values)
  else if (values.filter (fun v => !v.isNull)).all Value.isIntOrDouble then
    if values.any Value.isDouble then .double (values.map addContribQ).sum
    else .int (values.map addContribZ).sum
  else .str (concatDisplay values)

/-- The addition result as amended: booleans count as numbers (Python's
`bool` is a subclass of `int`), `True` contributing `1`. -/
def spec_addition_amended (values : List Value) : Value :=
  if values.any Value.isStr then .str (concatDisplay values)
  else if (values.filter (fun v => !v.isNull)).all Value.isPyNumber then
    if values.any Value.isDouble then .double (values.map addContribQ).sum
    else .int (values.map addContribZ).sum
  else .str (concatDisplay values)

/-- The first comparison operator, in the checked order, whose spaced
text occurs anywhere in the expression (`" op " in expression`). -/
def firstContainedOp (e : List Char) : Option CmpOp :=
  comparisonOpOrder.find? (fun op => containsSub e (spacedOpText op))

/-! Theorems.  Each claim of the specification review is settled by one
named theorem (with a witness where the theorem carries hypotheses);
auxiliary lemmas are shared. -/

/-- C9: let bindings shadow lexically and do not leak across siblings:
`let x = 1 in let x = 2 in $x` evaluates to `2`, and
`let x = 1 in { "a": $x, "b": let x = 2 in $x, "c": $x }` evaluates to
the object `{a:1, b:2, c:1}` — the inner binding is visible only in its
own body and later sibling pairs see the outer binding. -/
theorem let_scope_shadowing :
    evaluate_expression 50 [] (.obj []) [] ("let x = 1 in let x = 2 in $x").data =
      .ok (.int 2) ∧
    evaluate_expression 50 [] (.obj []) []
        ("let x = 1 in \x7b \"a\": $x, \"b\": let x = 2 in $x, \"c\": $x \x7d").data =
      .ok (.obj [("a".data, .int 1), ("b".data, .int 2), ("c".data, .int 1)]) :=
  ⟨rfl, rfl⟩

/-- C1 counterexample: the claim says a numeric-zero condition is truthy
(then-branch taken), but `if (0) 1 else 2` evaluates to the else branch
`2`, not the then branch `1` — the code branches on Python `bool()`. -/
theorem if_zero_condition_counterexample :
    evaluate_expression 10 [] (.obj []) [] ("if (0) 1 else 2").data = .ok (.int 2) ∧
    evaluate_expression 10 [] (.obj []) [] ("1").data = .ok (.int 1) ∧
    Value.int 2 ≠ Value.int 1 :=
  ⟨rfl, rfl, by simp⟩

/-- C1 as amended: the evaluated `if` condition selects the then-branch
exactly when it is Python-truthy — not `Null`, not `false`, and also not
numeric zero, not the empty string, not the empty array and not the
empty object; zero and empty containers select the else-branch. -/
theorem if_condition_python_truthiness
    (recur : Value → List Char → EvalM Value) (e cond thn els : List Char)
    (ctx c_val : Value)
    (hp : parse_if e = some (cond, thn, els))
    (hc : recur ctx (stripChars cond) = .ok c_val) :
    evaluate_if_expression recur e ctx =
      (if pyTruthy c_val then recur ctx (stripChars thn)
       else recur ctx (stripChars els)) ∧
    (pyTruthy c_val = true ↔
      (c_val ≠ .null ∧ c_val ≠ .bool false ∧ c_val ≠ .int 0 ∧ c_val ≠ .double 0 ∧
       c_val ≠ .str [] ∧ c_val ≠ .arr [] ∧ c_val ≠ .obj [])) := by
  constructor
  · simp [evaluate_if_expression, hp, hc, Bind.bind, Except.bind]
  · cases c_val <;> simp [pyTruthy]

/-- Witness for C1: at `if (0) 1 else 2` with condition value `0` the
theorem applies and the else branch is returned. -/
theorem if_condition_python_truthiness_w :
    evaluate_if_expression (fun ctx e => evaluate_expression 5 [] ctx [] e)
      ("if (0) 1 else 2").data (.obj []) = .ok (.int 2) := by
  have h := if_condition_python_truthiness
    (fun ctx e => evaluate_expression 5 [] ctx [] e)
    ("if (0) 1 else 2").data ("0").data ("1").data ("2").data (.obj []) (.int 0) rfl rfl
  rw [h.1]
  rfl

/-- C3: for each ordering operator, a `Null` operand on either side makes
the comparison `false` (not an error), and string-versus-number operands
in either order also yield `false` rather than raising. -/
theorem comparison_null_and_crosstype_false (op : CmpOp) (hop : op.isOrdering = true) :
    (∀ v, evaluate_comparison op .null v = false ∧
          evaluate_comparison op v .null = false) ∧
    (∀ s n, evaluate_comparison op (.str s) (.int n) = false ∧
            evaluate_comparison op (.int n) (.str s) = false) ∧
    (∀ s q, evaluate_comparison op (.str s) (.double q) = false ∧
            evaluate_comparison op (.double q) (.str s) = false) := by
  cases op <;> simp [CmpOp.isOrdering] at hop ⊢ <;>
    refine ⟨fun v => ⟨?_, ?_⟩, fun s n => ⟨?_, ?_⟩, fun s q => ⟨?_, ?_⟩⟩ <;>
    simp [evaluate_comparison, Value.isNull, pyRichCmp, numQ?]

/-- Witness for C3: `null < 3` and `"a" < 3` are both `false`. -/
theorem comparison_null_and_crosstype_false_w :
    evaluate_comparison .lt .null (.int 3) = false ∧
    evaluate_comparison .lt (.str ['a']) (.int 3) = false :=
  ⟨((comparison_null_and_crosstype_false .lt rfl).1 (.int 3)).1,
   ((comparison_null_and_crosstype_false .lt rfl).2.1 ['a'] 3).1⟩

/-- Stripping the empty string gives the empty string. -/
theorem stripChars_nil : stripChars [] = [] := rfl

/-- C7 counterexample: a whitespace-only program does not raise
`ErrEmptyExpression` — it evaluates to `None` and `transform` returns a
success envelope with output `null`. -/
theorem empty_expression_counterexample :
    evaluate_expression 1 [] (.obj []) [] ("   ").data = .ok .null ∧
    transform 1 (.obj []) ("   ").data =
      ⟨true, some .null, none⟩ :=
  ⟨rfl, rfl⟩

/-- C7 as amended: a whitespace-only (or empty) subexpression evaluates
to `Null` wherever it occurs, and a whitespace-only program makes
`transform` return a success envelope with output `Null`. -/
theorem empty_expression_evaluates_to_null
    (g vars : List (List Char × Value)) (ctx input : Value)
    (fuel : Nat) (s : List Char) (h : stripChars s = []) :
    evaluate_expression (fuel + 1) g ctx vars s = .ok .null ∧
    transform (fuel + 1) input s = ⟨true, some .null, none⟩ := by
  constructor
  · simp [evaluate_expression, h]
  · simp [transform, h, evaluate_expression, stripChars_nil]

/-- Witness for C7 at the whitespace program `"   "`. -/
theorem empty_expression_evaluates_to_null_w :
    evaluate_expression 1 [] (.obj []) [] ("   ").data = .ok .null ∧
    transform 1 (.obj []) ("   ").data = ⟨true, some .null, none⟩ :=
  empty_expression_evaluates_to_null [] [] (.obj []) (.obj []) 0 ("   ").data rfl

/-- The concatenation fold equals the flattened display forms. -/
theorem concatDisplayFold_eq (values : List Value) :
    concatDisplayFold values = concatDisplay values := by
  suffices h : ∀ (vs : List Value) (acc : List Char),
      vs.foldl (fun a v => a ++ pyStrOrEmpty v) acc = acc ++ (vs.map pyStrOrEmpty).flatten by
    simpa [concatDisplayFold, concatDisplay] using h values []
  intro vs
  induction vs with
  | nil => simp
  | cons v t ih => intro acc; simp [ih]

/-- The numeric-sum fold computes the float flag and the rational sum of
the contributions. -/
theorem additionStep_fold (vs : List Value) (b : Bool) (q : Rat) :
    vs.foldl additionStep (b, q) =
      (b || vs.any Value.isDouble, q + (vs.map addContribQ).sum) := by
  induction vs generalizing b q with
  | nil => simp
  | cons v t ih =>
    cases v <;>
      simp [additionStep, ih, Value.isDouble, addContribQ, add_assoc, Bool.or_assoc]

/-- Without a float part, the rational sum of contributions is the cast
of the integer sum. -/
theorem addContrib_sum_int (vs : List Value) (h : vs.any Value.isDouble = false) :
    (vs.map addContribQ).sum = ((vs.map addContribZ).sum : Int) := by
  induction vs with
  | nil => simp
  | cons v t ih =>
    simp only [List.any_cons, Bool.or_eq_false_iff] at h
    cases v <;> simp_all [addContribQ, addContribZ, Value.isDouble]

/-- C4 counterexample: a chain of two boolean parts is summed
numerically by the code (Python's `bool` is an `int`), producing the
integer `1`, while the claim's reading — booleans are not numeric, so
the chain falls back to string concatenation — produces the string
`"TrueFalse"`. -/
theorem addition_bool_counterexample :
    evaluate_addition_values [.bool true, .bool false] = .int 1 ∧
    spec_addition_claimed [.bool true, .bool false] = .str ("TrueFalse").data ∧
    Value.int 1 ≠ Value.str ("TrueFalse").data := by
  refine ⟨?_, rfl, by simp⟩
  norm_num [evaluate_addition_values, additionStep, Value.isStr, Value.isNull,
    Value.isPyNumber]

/-- C4 as amended: `evaluate_addition_values` behaves exactly as the
claim states once booleans are counted as numeric parts (`true` adding
`1`, `false` adding `0`): a string part forces concatenation of display
forms with `Null` as the empty string, otherwise all-numeric non-null
parts are summed — a double as soon as any part is a double, an integer
otherwise — and anything else falls back to concatenation. -/
theorem addition_matches_amended_spec (values : List Value) :
    evaluate_addition_values values = spec_addition_amended values := by
  unfold evaluate_addition_values spec_addition_amended
  rw [concatDisplayFold_eq, additionStep_fold]
  by_cases h1 : values.any Value.isStr
  · simp [h1]
  · by_cases h2 : (values.filter (fun v => !v.isNull)).all Value.isPyNumber
    · by_cases h3 : values.any Value.isDouble
      · simp [h1, h2, h3]
      · simp only [Bool.not_eq_true] at h3
        rw [addContrib_sum_int values h3]
        simp [h1, h2, h3, ← Int.cast_list_sum, Rat.num_intCast]
    · simp [h1, h2]

/-- C5 counterexample: the claim says `round` ties away from zero
(`round(0.5) = 1`), but the code calls Python 3's `round`, which ties to
even: `round(0.5)` is `0` and `round(2.5)` is `2`. -/
theorem round_half_counterexample :
    round_function (.double (1 / 2)) = .ok (.int 0) ∧
    round_function (.double (5 / 2)) = .ok (.int 2) ∧
    round_function (.double (-1 / 2)) = .ok (.int 0) ∧
    Value.int 0 ≠ Value.int 1 := by
  refine ⟨?_, ?_, ?_, by simp⟩ <;> norm_num [round_function, pyRound]

/-- C5 as amended: `round(x)` returns a nearest integer — within `1/2`
of the operand and at least as close as every integer — and a tie
(distance exactly `1/2`) is resolved to the even integer; integer
operands are returned unchanged. -/
theorem round_nearest_ties_even (q : Rat) :
    round_function (.double q) = .ok (.int (pyRound q)) ∧
    (∀ n : Int, round_function (.int n) = .ok (.int n)) ∧
    |(pyRound q : Rat) - q| ≤ 1 / 2 ∧
    (∀ m : Int, |(pyRound q : Rat) - q| ≤ |(m : Rat) - q|) ∧
    (|(pyRound q : Rat) - q| = 1 / 2 → pyRound q % 2 = 0) := by
  have hfl : (⌊q⌋ : Rat) ≤ q := Int.floor_le q
  have hfu : q < ⌊q⌋ + 1 := Int.lt_floor_add_one q
  have hdist : |(pyRound q : Rat) - q| ≤ 1 / 2 := by
    unfold pyRound
    dsimp only
    split_ifs with h1 h2 h3 <;> push_cast <;> rw [abs_le] <;> constructor <;> linarith
  refine ⟨rfl, ?_, hdist, ?_, ?_⟩
  · intro n
    have h0 : pyRound (n : Rat) = n := by
      unfold pyRound
      dsimp only
      rw [Int.floor_intCast n]
      have h00 : (n : Rat) - (n : Rat) = 0 := by ring
      rw [h00]
      norm_num
    simp [round_function, h0]
  · intro m
    by_cases hm : m = pyRound q
    · rw [hm]
    · have h1 : (1 : Rat) ≤ |(m : Rat) - (pyRound q : Rat)| := by
        rw [show ((m : Rat) - (pyRound q : Rat)) = ((m - pyRound q : Int) : Rat) by push_cast; ring]
        rw [← Int.cast_abs]
        exact_mod_cast Int.one_le_abs (sub_ne_zero.mpr hm)
      have h2 : |(m : Rat) - (pyRound q : Rat)| ≤
          |(m : Rat) - q| + |(pyRound q : Rat) - q| := by
        have h21 : (m : Rat) - (pyRound q : Rat) =
            ((m : Rat) - q) + (q - (pyRound q : Rat)) := by ring
        rw [h21]
        have h22 := abs_add ((m : Rat) - q) (q - (pyRound q : Rat))
        rw [abs_sub_comm q ((pyRound q : Rat))] at h22
        exact h22
      linarith
  · intro htie
    unfold pyRound at htie ⊢
    dsimp only at htie ⊢
    split_ifs at htie ⊢ with h1 h2 h3
    · exfalso
      rw [abs_of_nonpos (by linarith)] at htie
      linarith
    · exfalso
      rw [abs_of_nonneg (by push_cast; linarith)] at htie
      push_cast at htie
      linarith
    · simpa using h3
    · simp only [beq_iff_eq] at h3
      omega

/-- Witness for C5 at the tie `q = 1/2` and competitor `m = 1`. -/
theorem round_nearest_ties_even_w :
    round_function (.double (1 / 2)) = .ok (.int (pyRound (1 / 2))) ∧
    |(pyRound (1 / 2) : Rat) - 1 / 2| ≤ |((1 : Int) : Rat) - 1 / 2| ∧
    (|(pyRound (1 / 2) : Rat) - 1 / 2| = 1 / 2 → pyRound (1 / 2) % 2 = 0) :=
  ⟨(round_nearest_ties_even (1 / 2)).1,
   (round_nearest_ties_even (1 / 2)).2.2.2.1 1,
   (round_nearest_ties_even (1 / 2)).2.2.2.2⟩

/-- A successful first split: the string is the left part, the
separator, and the right part, and no earlier position starts the
separator. -/
theorem splitFirstSub_spec (s sep : List Char) :
    ∀ l r, splitFirstSub s sep = some (l, r) →
      s = l ++ sep ++ r ∧ ∀ k, k < l.length → ¬ sep.isPrefixOf (s.drop k) := by
  induction s with
  | nil =>
    intro l r h
    rw [splitFirstSub] at h
    split_ifs at h with hp
    · simp only [Option.some.injEq, Prod.mk.injEq] at h
      obtain ⟨h1, h2⟩ := h
      obtain ⟨t, ht⟩ := List.isPrefixOf_iff_prefix.mp hp
      subst h1 h2
      simp_all
  | cons c t ih =>
    intro l r h
    rw [splitFirstSub] at h
    split_ifs at h with hp
    · simp only [Option.some.injEq, Prod.mk.injEq] at h
      obtain ⟨h1, h2⟩ := h
      obtain ⟨u, hu⟩ := List.isPrefixOf_iff_prefix.mp hp
      subst h1 h2
      refine ⟨?_, by simp⟩
      simp only [List.nil_append]
      rw [← hu, List.drop_left]
    · match hrec : splitFirstSub t sep with
      | some (l', r') =>
        rw [hrec] at h
        simp only [Option.some.injEq, Prod.mk.injEq] at h
        obtain ⟨h1, h2⟩ := h
        obtain ⟨ha, hb⟩ := ih l' r' hrec
        subst h1 h2
        refine ⟨by simpa using ha, ?_⟩
        intro k hk
        match k with
        | 0 => simpa using hp
        | k' + 1 =>
          simp only [List.length_cons, Nat.add_lt_add_iff_right] at hk
          simpa using hb k' hk
      | none => rw [hrec] at h; exact absurd h (by simp)

/-- A contained substring can be split on. -/
theorem containsSub_splitFirstSub (s sep : List Char)
    (h : containsSub s sep = true) : (splitFirstSub s sep).isSome := by
  induction s with
  | nil =>
    rw [containsSub] at h
    rw [splitFirstSub]
    split_ifs at h ⊢ with hp
    all_goals simp_all
  | cons c t ih =>
    rw [containsSub] at h
    rw [splitFirstSub]
    split_ifs at h ⊢ with hp
    · simp
    · have h2 := ih h
      match hrec : splitFirstSub t sep with
      | some (l', r') => simp
      | none => rw [hrec] at h2; simp at h2

/-- C6 counterexample: in `(1 < 2) == true` the only top-level operator
is `==`, yet the evaluator selects `<` — whose sole occurrence is inside
the parentheses — because operator matching uses plain substring
containment, and it splits there, producing the pieces `"(1"` and
`"2) == true"` instead of a top-level split. -/
theorem operator_split_counterexample :
    firstContainedOp ("(1 < 2) == true").data = some .lt ∧
    has_top_level_operator ("(1 < 2) == true").data [spacedOpText .lt] = false ∧
    has_top_level_operator ("(1 < 2) == true").data [spacedOpText .eq] = true ∧
    splitFirstSub ("(1 < 2) == true").data (spacedOpText .lt) =
      some (("(1").data, ("2) == true").data) ∧
    (∀ recur, evaluate_operator recur ("(1 < 2) == true").data =
      evaluate_comparison_expr recur ("(1 < 2) == true").data .lt) :=
  ⟨rfl, rfl, rfl, rfl, fun _ => rfl⟩

/-- C6 as amended: the comparison operators are tried in the order
`>=`, `<=`, `>`, `<`, `==`, `!=`, but a match is plain substring
containment of `" op "` anywhere in the expression (also inside strings
or brackets), and the expression is split at the first occurrence
anywhere — not the first top-level occurrence — yielding exactly two
subexpressions whose concatenation around the operator restores the
expression. -/
theorem operator_first_match_split (e : List Char) (op : CmpOp)
    (h : firstContainedOp e = some op) :
    ∃ l r, splitFirstSub e (spacedOpText op) = some (l, r) ∧
      e = l ++ spacedOpText op ++ r ∧
      (∀ k, k < l.length → ¬ (spacedOpText op).isPrefixOf (e.drop k)) ∧
      ∀ recur, evaluate_operator recur e = evaluate_comparison_expr recur e op := by
  have key : ∀ op' : CmpOp, containsSub e (spacedOpText op') = true →
      (∀ recur, evaluate_operator recur e = evaluate_comparison_expr recur e op') →
      ∃ l r, splitFirstSub e (spacedOpText op') = some (l, r) ∧
        e = l ++ spacedOpText op' ++ r ∧
        (∀ k, k < l.length → ¬ (spacedOpText op').isPrefixOf (e.drop k)) ∧
        ∀ recur, evaluate_operator recur e = evaluate_comparison_expr recur e op' := by
    intro op' hc hev
    obtain ⟨⟨l, r⟩, hlr⟩ := Option.isSome_iff_exists.mp (containsSub_splitFirstSub e _ hc)
    obtain ⟨h1, h2⟩ := splitFirstSub_spec e _ l r hlr
    exact ⟨l, r, hlr, h1, h2, hev⟩
  simp only [firstContainedOp, comparisonOpOrder] at h
  by_cases c1 : containsSub e (spacedOpText .ge) = true
  · rw [@List.find?_cons_of_pos CmpOp (fun o => containsSub e (spacedOpText o)) CmpOp.ge [CmpOp.le, CmpOp.gt, CmpOp.lt, CmpOp.eq, CmpOp.ne] c1] at h
    obtain rfl : CmpOp.ge = op := by simpa using h
    exact key _ c1 (fun recur => by simp [evaluate_operator, c1])
  · rw [@List.find?_cons_of_neg CmpOp (fun o => containsSub e (spacedOpText o)) CmpOp.ge [CmpOp.le, CmpOp.gt, CmpOp.lt, CmpOp.eq, CmpOp.ne] (by simpa using c1)] at h
    by_cases c2 : containsSub e (spacedOpText .le) = true
    · rw [@List.find?_cons_of_pos CmpOp (fun o => containsSub e (spacedOpText o)) CmpOp.le [CmpOp.gt, CmpOp.lt, CmpOp.eq, CmpOp.ne] c2] at h
      obtain rfl : CmpOp.le = op := by simpa using h
      exact key _ c2 (fun recur => by simp [evaluate_operator, c1, c2])
    · rw [@List.find?_cons_of_neg CmpOp (fun o => containsSub e (spacedOpText o)) CmpOp.le [CmpOp.gt, CmpOp.lt, CmpOp.eq, CmpOp.ne] (by simpa using c2)] at h
      by_cases c3 : containsSub e (spacedOpText .gt) = true
      · rw [@List.find?_cons_of_pos CmpOp (fun o => containsSub e (spacedOpText o)) CmpOp.gt [CmpOp.lt, CmpOp.eq, CmpOp.ne] c3] at h
        obtain rfl : CmpOp.gt = op := by simpa using h
        exact key _ c3 (fun recur => by simp [evaluate_operator, c1, c2, c3])
      · rw [@List.find?_cons_of_neg CmpOp (fun o => containsSub e (spacedOpText o)) CmpOp.gt [CmpOp.lt, CmpOp.eq, CmpOp.ne] (by simpa using c3)] at h
        by_cases c4 : containsSub e (spacedOpText .lt) = true
        · rw [@List.find?_cons_of_pos CmpOp (fun o => containsSub e (spacedOpText o)) CmpOp.lt [CmpOp.eq, CmpOp.ne] c4] at h
          obtain rfl : CmpOp.lt = op := by simpa using h
          exact key _ c4 (fun recur => by simp [evaluate_operator, c1, c2, c3, c4])
        · rw [@List.find?_cons_of_neg CmpOp (fun o => containsSub e (spacedOpText o)) CmpOp.lt [CmpOp.eq, CmpOp.ne] (by simpa using c4)] at h
          by_cases c5 : containsSub e (spacedOpText .eq) = true
          · rw [@List.find?_cons_of_pos CmpOp (fun o => containsSub e (spacedOpText o)) CmpOp.eq [CmpOp.ne] c5] at h
            obtain rfl : CmpOp.eq = op := by simpa using h
            exact key _ c5 (fun recur => by simp [evaluate_operator, c1, c2, c3, c4, c5])
          · rw [@List.find?_cons_of_neg CmpOp (fun o => containsSub e (spacedOpText o)) CmpOp.eq [CmpOp.ne] (by simpa using c5)] at h
            by_cases c6 : containsSub e (spacedOpText .ne) = true
            · rw [@List.find?_cons_of_pos CmpOp (fun o => containsSub e (spacedOpText o)) CmpOp.ne [] c6] at h
              obtain rfl : CmpOp.ne = op := by simpa using h
              exact key _ c6 (fun recur => by simp [evaluate_operator, c1, c2, c3, c4, c5, c6])
            · rw [@List.find?_cons_of_neg CmpOp (fun o => containsSub e (spacedOpText o)) CmpOp.ne [] (by simpa using c6)] at h
              simp at h

/-- Witness for C6 at `1 == 2`: the first matching operator is `==` and
the split is at its only occurrence. -/
theorem operator_first_match_split_w :
    ∃ l r, splitFirstSub ("1 == 2").data (spacedOpText .eq) = some (l, r) ∧
      ("1 == 2").data = l ++ spacedOpText .eq ++ r ∧
      (∀ k, k < l.length → ¬ (spacedOpText .eq).isPrefixOf (("1 == 2").data.drop k)) ∧
      ∀ recur, evaluate_operator recur ("1 == 2").data =
        evaluate_comparison_expr recur ("1 == 2").data .eq :=
  operator_first_match_split ("1 == 2").data .eq rfl

/-- `dropWhile` is the identity when the predicate holds nowhere. -/
theorem dropWhile_all_false (p : Char → Bool) (l : List Char)
    (h : ∀ c ∈ l, p c = false) : l.dropWhile p = l := by
  cases l with
  | nil => rfl
  | cons c t => simp [List.dropWhile_cons, h c (by simp)]

/-- Stripping a string with no whitespace characters is the identity. -/
theorem stripChars_eq_self (s : List Char) (h : ∀ c ∈ s, pyIsSpace c = false) :
    stripChars s = s := by
  unfold stripChars
  rw [dropWhile_all_false _ _ h,
      dropWhile_all_false _ _ (fun c hc => h c (by simpa using hc)),
      List.reverse_reverse]

/-- `takeWhile` is the identity when the predicate holds everywhere. -/
theorem takeWhile_all_true (p : Char → Bool) (l : List Char)
    (h : ∀ c ∈ l, p c = true) : l.takeWhile p = l := by
  induction l with
  | nil => rfl
  | cons c t ih =>
    simp [List.takeWhile_cons, h c (by simp), ih (fun d hd => h d (by simp [hd]))]

/-- Characters of a contained substring occur in the string. -/
theorem containsSub_subset (s sub : List Char) (h : containsSub s sub = true) :
    ∀ c ∈ sub, c ∈ s := by
  induction s with
  | nil =>
    rw [containsSub] at h
    split_ifs at h with hp
    intro c hc
    obtain ⟨t, ht⟩ := List.isPrefixOf_iff_prefix.mp hp
    rw [← ht]
    exact List.mem_append_left t hc
  | cons c0 t ih =>
    rw [containsSub] at h
    split_ifs at h with hp
    · intro c hc
      obtain ⟨u, hu⟩ := List.isPrefixOf_iff_prefix.mp hp
      rw [← hu]
      exact List.mem_append_left u hc
    · intro c hc
      exact List.mem_cons_of_mem c0 (ih h c hc)

/-- Word characters are not whitespace. -/
theorem wordChar_not_space (c : Char) (h : isWordChar c = true) :
    pyIsSpace c = false := by
  by_cases hs : pyIsSpace c = true
  · exfalso
    unfold pyIsSpace at hs
    simp only [Bool.or_eq_true, beq_iff_eq] at hs
    rcases hs with ((((rfl | rfl) | rfl) | rfl) | rfl) | rfl <;> exact absurd h (by decide)
  · simpa using hs

/-- C10: the evaluator never writes the service-level global scope — it
appears only as a read-only argument, reset to the empty dict by
`transform` — so a `$name` reference whose name is unbound in the local
scope raises `Undefined variable` under `transform`'s empty globals, and
a locally bound name resolves from the local scope whatever the global
scope holds (local shadows global). -/
theorem global_scope_empty_and_inert :
    (∀ fuel input p, transform fuel input p =
        match evaluate_expression fuel [] input [] (stripChars p) with
        | .ok result => ⟨true, some result, none⟩
        | .error e => ⟨false, none, some (renderErr e)⟩) ∧
    (∀ fuel ctx vars name, name ≠ [] → name.all isWordChar = true →
        objGet vars name = none →
        evaluate_expression (fuel + 1) [] ctx vars ('$' :: name) =
          .error (.valueError ("Undefined variable: $".data ++ name))) ∧
    (∀ (name : List Char) vars g v, name ≠ [] → name.all isWordChar = true →
        objGet vars name = some v →
        evaluate_variable_reference ('$' :: name) vars g = .ok v) := by
  refine ⟨fun fuel input p => rfl, ?_, ?_⟩
  · intro fuel ctx vars name h1 h2 h3
    have hword : ∀ c ∈ name, isWordChar c = true := List.all_eq_true.mp h2
    have hnos : ∀ c ∈ ('$' :: name), pyIsSpace c = false := by
      intro c hc
      rcases List.mem_cons.mp hc with rfl | hc
      · rfl
      · exact wordChar_not_space c (hword c hc)
    have hstrip := stripChars_eq_self _ hnos
    have hlet : containsSub ('$' :: name) ['l','e','t',' '] = false := by
      by_contra hc
      rw [Bool.not_eq_false] at hc
      have hsp : ' ' ∈ ('$' :: name) :=
        containsSub_subset _ _ hc ' ' (by simp)
      rcases List.mem_cons.mp hsp with heq | hmem
      · exact absurd heq (by decide)
      · exact absurd (hword ' ' hmem) (by decide)
    have htake : name.takeWhile isWordChar = name := takeWhile_all_true _ _ hword
    rw [evaluate_expression]
    simp only [hstrip, hlet, List.isEmpty_cons, Bool.false_eq_true, if_false,
      Bool.false_and, List.head?_cons, beq_self_eq_true, Bool.true_or, if_true]
    rw [evaluate_variable]
    simp only [List.head?_cons, beq_self_eq_true, if_true]
    rw [evaluate_variable_reference]
    simp only [List.head?_cons, beq_self_eq_true, if_true, List.tail_cons, htake]
    simp [List.isEmpty_eq_true, h1, h3, objGet]
  · intro name vars g v h1 h2 h3
    have hword : ∀ c ∈ name, isWordChar c = true := List.all_eq_true.mp h2
    have htake : name.takeWhile isWordChar = name := takeWhile_all_true _ _ hword
    rw [evaluate_variable_reference]
    simp only [List.head?_cons, beq_self_eq_true, if_true, List.tail_cons, htake]
    simp [List.isEmpty_eq_true, h1, h3]

/-- Witness for C10: `$x` with empty scopes raises, and a bound `$x`
resolves locally even with a conflicting global binding. -/
theorem global_scope_empty_and_inert_w :
    evaluate_expression 1 [] (.obj []) [] ('$' :: ['x']) =
      .error (.valueError ("Undefined variable: $".data ++ ['x'])) ∧
    evaluate_variable_reference ('$' :: ['x']) [(['x'], .int 1)]
      [(['x'], .int 2)] = .ok (.int 1) :=
  ⟨(global_scope_empty_and_inert.2.1) 0 (.obj []) [] ['x'] (by simp) (by decide) rfl,
   (global_scope_empty_and_inert.2.2) ['x'] [(['x'], .int 1)] [(['x'], .int 2)]
     (.int 1) (by simp) (by decide) rfl⟩

/-- The last element of a nonempty suffix is the last element of the
whole list. -/
theorem getLast?_of_suffix {s l : List Char} (h : s <:+ l) (hne : s ≠ []) :
    s.getLast? = l.getLast? := by
  obtain ⟨t, rfl⟩ := h
  match s, hne with
  | c :: s', _ =>
    have hs : (c :: s').getLast?.isSome := List.getLast?_isSome.mpr (by simp)
    obtain ⟨y, hy⟩ := Option.isSome_iff_exists.mp hs
    simp [List.getLast?_append, hy]

/-- The head of a stripped string is not whitespace. -/
theorem head?_stripChars (s : List Char) (c : Char)
    (h : (stripChars s).head? = some c) : pyIsSpace c = false := by
  unfold stripChars at h
  rw [List.head?_reverse] at h
  have hw : ((s.dropWhile pyIsSpace).reverse.dropWhile pyIsSpace) ≠ [] := by
    intro hnil
    rw [hnil] at h
    simp at h
  rw [getLast?_of_suffix (List.dropWhile_suffix pyIsSpace) hw,
      List.getLast?_reverse] at h
  have hmatch := List.head?_dropWhile_not pyIsSpace s
  rw [h] at hmatch
  exact hmatch

/-- The last character of a stripped string is not whitespace. -/
theorem getLast?_stripChars (s : List Char) (c : Char)
    (h : (stripChars s).getLast? = some c) : pyIsSpace c = false := by
  unfold stripChars at h
  rw [List.getLast?_reverse] at h
  have hmatch := List.head?_dropWhile_not pyIsSpace (s.dropWhile pyIsSpace).reverse
  rw [h] at hmatch
  exact hmatch

/-- Stripping a string whose first and last characters are not
whitespace is the identity. -/
theorem stripChars_eq_self_of_ends (x : List Char)
    (hh : ∀ c, x.head? = some c → pyIsSpace c = false)
    (hl : ∀ c, x.getLast? = some c → pyIsSpace c = false) :
    stripChars x = x := by
  have h1 : x.dropWhile pyIsSpace = x := by
    cases hx : x with
    | nil => rfl
    | cons c t =>
      rw [List.dropWhile_cons, hh c (by rw [hx]; rfl)]
      simp
  unfold stripChars
  rw [h1]
  have h2 : x.reverse.dropWhile pyIsSpace = x.reverse := by
    cases hx : x.reverse with
    | nil => rfl
    | cons c t =>
      rw [List.dropWhile_cons, hl c (by rw [← List.head?_reverse, hx]; rfl)]
      simp
  rw [h2, List.reverse_reverse]

/-- Stripping is idempotent. -/
theorem stripChars_idem (s : List Char) :
    stripChars (stripChars s) = stripChars s :=
  stripChars_eq_self_of_ends _ (head?_stripChars s) (getLast?_stripChars s)

/-- Every part the splitter loop emits is a stripped string (given that
the parts accumulated so far are). -/
theorem split_go_parts_stripped (d : List Char) (fuel : Nat) :
    ∀ (rest : List Char) (instr : Option Char) (depth : Int)
      (current : List Char) (parts : List (List Char)),
      (∀ x ∈ parts, x = stripChars x) →
      ∀ x ∈ (split_by_delimiter_go d fuel rest instr depth current parts).1,
        x = stripChars x := by
  induction fuel with
  | zero =>
    intro rest instr depth current parts h x hx
    exact h x (by simpa [split_by_delimiter_go] using hx)
  | succ n ih =>
    intro rest instr depth current parts h x hx
    match rest with
    | [] => exact h x (by simpa [split_by_delimiter_go] using hx)
    | c :: rs =>
      rcases instr with _ | q
      · rw [split_by_delimiter_go] at hx
        have hext : ∀ y ∈ parts ++ [stripChars current], y = stripChars y := by
          intro y hy
          rcases List.mem_append.mp hy with hy | hy
          · exact h y hy
          · rw [List.mem_singleton.mp hy]
            exact (stripChars_idem current).symm
        split_ifs at hx
        · exact ih rs (some c) depth (current ++ [c]) parts h x hx
        · exact ih rs none (depth + 1) (current ++ [c]) parts h x hx
        · exact ih rs none (depth - 1) (current ++ [c]) parts h x hx
        · exact ih _ none depth [] (parts ++ [stripChars current]) hext x hx
        · exact ih rs none depth (current ++ [c]) parts h x hx
      · rw [split_by_delimiter_go] at hx
        split_ifs at hx
        · exact ih rs none depth (current ++ [c]) parts h x hx
        · exact ih rs (some q) depth (current ++ [c]) parts h x hx

/-- When the top-level-operator scan finds no occurrence of the
delimiter, the splitter loop emits no part and keeps accumulating. -/
theorem split_go_no_delim (d : List Char) (fuel : Nat) :
    ∀ (rest : List Char) (instr : Option Char) (depth : Int)
      (current : List Char) (parts : List (List Char)),
      rest.length ≤ fuel →
      has_top_level_operator_go [d] rest instr depth = false →
      split_by_delimiter_go d fuel rest instr depth current parts =
        (parts, current ++ rest) := by
  induction fuel with
  | zero =>
    intro rest instr depth current parts hlen hop
    have : rest = [] := List.eq_nil_of_length_eq_zero (Nat.le_zero.mp hlen)
    subst this
    simp [split_by_delimiter_go]
  | succ n ih =>
    intro rest instr depth current parts hlen hop
    match rest with
    | [] => simp [split_by_delimiter_go]
    | c :: rs =>
      simp only [List.length_cons, Nat.add_le_add_iff_right] at hlen
      rcases instr with _ | q
      · rw [has_top_level_operator_go] at hop
        rw [split_by_delimiter_go]
        by_cases h1 : (c == '"' || c == '\'') = true
        · rw [if_pos h1]
          rw [if_pos h1] at hop
          rw [ih rs (some c) depth (current ++ [c]) parts hlen hop]
          simp
        · rw [if_neg (by simpa using h1)]
          rw [if_neg (by simpa using h1)] at hop
          by_cases h2 : openingChars.contains c = true
          · rw [if_pos h2]
            rw [if_pos h2] at hop
            rw [ih rs none (depth + 1) (current ++ [c]) parts hlen hop]
            simp
          · rw [if_neg (by simpa using h2)]
            rw [if_neg (by simpa using h2)] at hop
            by_cases h3 : closingChars.contains c = true
            · rw [if_pos h3]
              rw [if_pos h3] at hop
              rw [ih rs none (depth - 1) (current ++ [c]) parts hlen hop]
              simp
            · rw [if_neg (by simpa using h3)]
              rw [if_neg (by simpa using h3)] at hop
              by_cases h4 : (depth == 0 && d.isPrefixOf (c :: rs)) = true
              · exfalso
                have : (depth == 0 &&
                    [d].any (fun op => op.isPrefixOf (c :: rs))) = true := by
                  simp only [List.any_cons, List.any_nil, Bool.or_false]
                  exact h4
                rw [if_pos this] at hop
                exact Bool.true_eq_false.mp hop
              · rw [if_neg h4]
                have h4' : ¬ (depth == 0 &&
                    [d].any (fun op => op.isPrefixOf (c :: rs))) = true := by
                  intro hcon
                  apply h4
                  simpa [List.any_cons] using hcon
                rw [if_neg h4'] at hop
                rw [ih rs none depth (current ++ [c]) parts hlen hop]
                simp
      · rw [has_top_level_operator_go] at hop
        rw [split_by_delimiter_go]
        by_cases h1 : (c == q) = true
        · rw [if_pos h1]
          rw [if_pos h1] at hop
          rw [ih rs none depth (current ++ [c]) parts hlen hop]
          simp
        · rw [if_neg h1]
          rw [if_neg h1] at hop
          rw [ih rs (some q) depth (current ++ [c]) parts hlen hop]
          simp

/-- C8 counterexample: `split_by_delimiter` does not suppress empty
parts between adjacent delimiters — `"a,,b"` splits to `["a", "", "b"]`
with an empty element — and a whitespace-only input with no split point
returns the original untrimmed input, not the trimmed one. -/
theorem split_by_delimiter_counterexample :
    split_by_delimiter ("a,,b").data [','] = [['a'], [], ['b']] ∧
    ([] : List Char) ∈ split_by_delimiter ("a,,b").data [','] ∧
    split_by_delimiter ("  ").data [','] = [[' ', ' ']] ∧
    stripChars ("  ").data = [] ∧
    ([[' ', ' ']] : List (List Char)) ≠ [stripChars ("  ").data] :=
  ⟨rfl, by decide, rfl, rfl, by decide⟩

/-- C8 as amended: every part emitted at a delimiter is trimmed (but may
be empty), the trailing part is appended only when nonblank, and the
whole untrimmed input is returned only as the fallback when no part at
all was produced; when no top-level delimiter occurs and the input is
not whitespace-only, the result is exactly the singleton of the trimmed
input. -/
theorem split_by_delimiter_trimmed (content d : List Char) :
    (∀ x ∈ split_by_delimiter content d, x = stripChars x ∨ x = content) ∧
    (has_top_level_operator content [d] = false → stripChars content ≠ [] →
      split_by_delimiter content d = [stripChars content]) := by
  constructor
  · intro x hx
    unfold split_by_delimiter at hx
    dsimp only at hx
    have hbase : ∀ y ∈ (split_by_delimiter_go d content.length content none 0 [] []).1,
        y = stripChars y :=
      split_go_parts_stripped d content.length content none 0 [] [] (by simp)
    split_ifs at hx with h1 h2 h3
    · right
      simpa using hx
    · left
      exact hbase x hx
    · right
      simpa using hx
    · rcases List.mem_append.mp hx with hx | hx
      · left
        exact hbase x hx
      · left
        rw [List.mem_singleton.mp hx]
        exact (stripChars_idem _).symm
  · intro hop hne
    unfold split_by_delimiter
    rw [split_go_no_delim d content.length content none 0 [] [] le_rfl hop]
    have hie : (stripChars ([] ++ content)).isEmpty = false := by
      simp only [List.nil_append]
      simpa [List.isEmpty_eq_false] using hne
    dsimp only
    simp [hie, hne]

/-- Witness for C8 at `"a b"` split on `","`: no comma occurs, so the
result is the singleton trimmed input, and every element is trimmed. -/
theorem split_by_delimiter_trimmed_w :
    (∀ x ∈ split_by_delimiter ("a b").data [','],
      x = stripChars x ∨ x = ("a b").data) ∧
    split_by_delimiter ("a b").data [','] = [stripChars ("a b").data] :=
  ⟨(split_by_delimiter_trimmed ("a b").data [',']).1,
   (split_by_delimiter_trimmed ("a b").data [',']).2 rfl (by decide)⟩

/-- The rendered digit of a value below ten is a decimal digit
character. -/
theorem digitChar_isDigit (k : Nat) (h : k < 10) :
    (Nat.digitChar k).isDigit = true := by
  interval_cases k <;> decide

/-- Parsing a rendered digit recovers its value. -/
theorem digitChar_val (k : Nat) (h : k < 10) :
    (Nat.digitChar k).toNat - 48 = k := by
  interval_cases k <;> decide

/-- `natToDecimalAux` accumulates the decimal expansion: folding the
parse step over it from any accumulator. -/
theorem natToDecimalAux_parse (fuel : Nat) :
    ∀ n, n ≤ fuel →
      ∀ a : Nat, (natToDecimalAux fuel n).foldl
          (fun x c => x * 10 + (c.toNat - 48)) a =
        a * 10 ^ (natToDecimalAux fuel n).length + n := by
  induction fuel with
  | zero =>
    intro n hn a
    have : n = 0 := Nat.le_zero.mp hn
    subst this
    simp [natToDecimalAux]
  | succ m ih =>
    intro n hn a
    by_cases h0 : n = 0
    · subst h0
      simp [natToDecimalAux]
    · rw [natToDecimalAux, if_neg h0]
      have hdiv : n / 10 ≤ m := by
        have := Nat.div_lt_self (Nat.pos_of_ne_zero h0) (by norm_num : 1 < 10)
        omega
      rw [List.foldl_append, ih (n / 10) hdiv a]
      simp only [List.length_append, List.length_singleton, List.foldl_cons,
        List.foldl_nil]
      rw [digitChar_val (n % 10) (Nat.mod_lt n (by norm_num))]
      rw [pow_succ]
      have : n = 10 * (n / 10) + n % 10 := (Nat.div_add_mod n 10).symm ▸ by omega
      ring_nf
      omega

/-- Every character of `natToDecimalAux` is a digit. -/
theorem natToDecimalAux_digits (fuel : Nat) :
    ∀ n, ∀ c ∈ natToDecimalAux fuel n, c.isDigit = true := by
  induction fuel with
  | zero => intro n c hc; simp [natToDecimalAux] at hc
  | succ m ih =>
    intro n c hc
    rw [natToDecimalAux] at hc
    split_ifs at hc with h0
    · simp at hc
    · rcases List.mem_append.mp hc with hc | hc
      · exact ih (n / 10) c hc
      · rw [List.mem_singleton.mp hc]
        exact digitChar_isDigit (n % 10) (Nat.mod_lt n (by norm_num))

/-- Every character of a rendered natural number is a digit. -/
theorem natToDecimal_digits (n : Nat) :
    ∀ c ∈ natToDecimal n, c.isDigit = true := by
  intro c hc
  unfold natToDecimal at hc
  split_ifs at hc with h0
  · rw [List.mem_singleton.mp hc]; decide
  · exact natToDecimalAux_digits (n + 1) n c hc

/-- A rendered natural number is nonempty. -/
theorem natToDecimal_ne_nil (n : Nat) : natToDecimal n ≠ [] := by
  unfold natToDecimal
  split_ifs with h0
  · simp
  · rw [natToDecimalAux, if_neg h0]
    simp

/-- Parsing a rendered natural number recovers it. -/
theorem parseNatDigits_natToDecimal (n : Nat) :
    parseNatDigits (natToDecimal n) = n := by
  unfold parseNatDigits natToDecimal
  split_ifs with h0
  · subst h0; decide
  · rw [natToDecimalAux_parse (n + 1) n (by omega) 0]
    simp

/-- A character satisfying a predicate differs (as `==`) from any
character that does not. -/
theorem char_ne_of_pred (c x : Char) (p : Char → Bool) (h : p c = true)
    (hx : p x = false) : (c == x) = false := by
  by_cases hc : c = x
  · subst hc
    rw [h] at hx
    exact absurd hx (by simp)
  · exact beq_eq_false_iff_ne.mpr hc

/-- `takeWhile` walks through a block where the predicate always
holds. -/
theorem takeWhile_append_all (p : Char → Bool) (l m : List Char)
    (h : ∀ c ∈ l, p c = true) :
    (l ++ m).takeWhile p = l ++ m.takeWhile p := by
  induction l with
  | nil => simp
  | cons c t ih =>
    simp only [List.cons_append, List.takeWhile_cons, h c (by simp)]
    rw [ih (fun d hd => h d (by simp [hd]))]
    simp

/-- `findIdx?` over a block of failing characters shifts by the block
length. -/
theorem findIdx?_append_none (p : Char → Bool) (l m : List Char)
    (h : ∀ c ∈ l, p c = false) :
    (l ++ m).findIdx? p = (m.findIdx? p).map (· + l.length) := by
  induction l with
  | nil =>
    cases hm : m.findIdx? p <;> simp [hm]
  | cons c t ih =>
    simp only [List.cons_append, List.findIdx?_cons, h c (by simp),
      Bool.false_eq_true, if_false]
    rw [List.findIdx?_succ, ih (fun d hd => h d (by simp [hd]))]
    cases hm : m.findIdx? p <;> simp [hm]
    omega

/-- `findIdx?` misses when the predicate fails everywhere. -/
theorem findIdx?_none (p : Char → Bool) (l : List Char)
    (h : ∀ c ∈ l, p c = false) : l.findIdx? p = none := by
  have := findIdx?_append_none p l [] h
  simpa using this

/-- Resolving at least one segment against `Null` yields `Null`. -/
theorem specResolvePath_null (s : PathStep) (rest : List PathStep) :
    specResolvePath (s :: rest) .null = .null := by
  cases s <;> rfl

/-- A list avoiding a character does not contain it. -/
theorem contains_eq_false_of (l : List Char) (x : Char)
    (h : ∀ c ∈ l, c ≠ x) : l.contains x = false := by
  induction l with
  | nil => rfl
  | cons c t ih =>
    simp only [List.contains_cons, Bool.or_eq_false_iff]
    constructor
    · exact beq_eq_false_iff_ne.mpr (fun he => h c (by simp) (by simp [he]))
    · exact ih (fun d hd => h d (by simp [hd]))

/-- The characters that can occur in a rendered path body are never
newlines. -/
theorem renderAfterDot_no_newline (gs : List PathGroup)
    (h : gs.all wfPathGroup = true) :
    ∀ c ∈ renderAfterDot gs, c ≠ '\n' := by
  induction gs with
  | nil => simp [renderAfterDot]
  | cons g rest ih =>
    obtain ⟨hg, hrest⟩ : wfPathGroup g = true ∧ rest.all wfPathGroup = true := by
      simpa using h
    intro c hc
    have hword : ∀ d (n : List Char), (!n.isEmpty && n.all isWordChar) = true →
        d ∈ n → d ≠ '\n' := by
      intro d n hn hd he
      subst he
      simp only [Bool.and_eq_true, List.all_eq_true] at hn
      exact absurd (hn.2 _ hd) (by decide)
    have htail : ∀ d ∈ (if rest.isEmpty then ([] : List Char)
        else '.' :: renderAfterDot rest), d ≠ '\n' := by
      intro d hd
      split_ifs at hd with hre
      · simp at hd
      · rcases List.mem_cons.mp hd with rfl | hd
        · decide
        · exact ih hrest d hd
    cases g with
    | gField n =>
      rw [renderAfterDot] at hc
      rcases List.mem_append.mp hc with hc | hc
      · exact hword c n hg hc
      · exact htail c hc
    | gFieldIdx n i =>
      rw [renderAfterDot] at hc
      rcases List.mem_append.mp hc with hc | hc
      · exact hword c n hg hc
      · rcases List.mem_cons.mp hc with rfl | hc
        · decide
        · rcases List.mem_append.mp hc with hc | hc
          · intro he
            subst he
            exact absurd (natToDecimal_digits i _ hc) (by decide)
          · rcases List.mem_cons.mp hc with rfl | hc
            · decide
            · exact htail c hc

/-- The rendered body of a nonempty well-formed group list starts with a
word character. -/
theorem renderAfterDot_head (g : PathGroup) (rest : List PathGroup)
    (h : wfPathGroup g = true) :
    ∃ c cs, renderAfterDot (g :: rest) = c :: cs ∧ isWordChar c = true := by
  cases g with
  | gField n =>
    simp only [wfPathGroup, Bool.and_eq_true, List.all_eq_true] at h
    match n, h with
    | c :: n', ⟨_, hall⟩ =>
      exact ⟨c, _, by rw [renderAfterDot, List.cons_append], hall c (by simp)⟩
  | gFieldIdx n i =>
    simp only [wfPathGroup, Bool.and_eq_true, List.all_eq_true] at h
    match n, h with
    | c :: n', ⟨_, hall⟩ =>
      exact ⟨c, _, by rw [renderAfterDot, List.cons_append], hall c (by simp)⟩

/-- Segment lists of nonempty group lists are nonempty. -/
theorem pathGroupsSteps_ne_nil (g : PathGroup) (rest : List PathGroup) :
    pathGroupsSteps (g :: rest) ≠ [] := by
  cases g <;> simp [pathGroupsSteps, pathGroupSteps]

/-- `arrayIndexMatch` fails on a bare well-formed name. -/
theorem arrayIndexMatch_name (n : List Char) (hne : n ≠ [])
    (hw : ∀ c ∈ n, isWordChar c = true) :
    arrayIndexMatch n = none := by
  unfold arrayIndexMatch
  have hf : n.takeWhile (fun c => !(c == '.' || c == '[')) = n := by
    have := takeWhile_append_all (fun c => !(c == '.' || c == '[')) n []
      (fun c hc => by
        simp [char_ne_of_pred c '.' isWordChar (hw c hc) (by decide),
          char_ne_of_pred c '[' isWordChar (hw c hc) (by decide)])
    simpa using this
  rw [hf]
  rw [if_neg (by simpa [List.isEmpty_eq_true] using hne)]
  simp

/-- `arrayIndexMatch` fails when a well-formed name is followed by a
dot. -/
theorem arrayIndexMatch_name_dot (n r : List Char) (hne : n ≠ [])
    (hw : ∀ c ∈ n, isWordChar c = true) :
    arrayIndexMatch (n ++ '.' :: r) = none := by
  unfold arrayIndexMatch
  have hf : (n ++ '.' :: r).takeWhile (fun c => !(c == '.' || c == '[')) = n := by
    rw [takeWhile_append_all _ n _ (fun c hc => by
      simp [char_ne_of_pred c '.' isWordChar (hw c hc) (by decide),
        char_ne_of_pred c '[' isWordChar (hw c hc) (by decide)])]
    simp [List.takeWhile_cons]
  rw [hf]
  rw [if_neg (by simpa [List.isEmpty_eq_true] using hne)]
  have hlen : n.length = n.length := rfl
  rw [show (n ++ '.' :: r).drop n.length = '.' :: r from List.drop_left n ('.' :: r)]
  simp

/-- `arrayIndexMatch` succeeds on `name[digits]` followed by
newline-free text, matching the name, the digits and the text. -/
theorem arrayIndexMatch_idx (n : List Char) (i : Nat) (tail : List Char)
    (hne : n ≠ []) (hw : ∀ c ∈ n, isWordChar c = true)
    (htail : ∀ c ∈ tail, c ≠ '\n') :
    arrayIndexMatch (n ++ '[' :: (natToDecimal i ++ ']' :: tail)) =
      some (n, natToDecimal i, tail) := by
  unfold arrayIndexMatch
  have hf : (n ++ '[' :: (natToDecimal i ++ ']' :: tail)).takeWhile
      (fun c => !(c == '.' || c == '[')) = n := by
    rw [takeWhile_append_all _ n _ (fun c hc => by
      simp [char_ne_of_pred c '.' isWordChar (hw c hc) (by decide),
        char_ne_of_pred c '[' isWordChar (hw c hc) (by decide)])]
    simp [List.takeWhile_cons]
  rw [hf]
  rw [if_neg (by simpa [List.isEmpty_eq_true] using hne)]
  rw [show (n ++ '[' :: (natToDecimal i ++ ']' :: tail)).drop n.length =
    '[' :: (natToDecimal i ++ ']' :: tail) from List.drop_left n _]
  simp only [List.head?_cons, beq_self_eq_true, if_true, List.tail_cons]
  have hds : (natToDecimal i ++ ']' :: tail).takeWhile (·.isDigit) = natToDecimal i := by
    rw [takeWhile_append_all _ _ _ (natToDecimal_digits i)]
    simp [List.takeWhile_cons]
  rw [hds]
  rw [if_neg (by simpa [List.isEmpty_eq_true] using natToDecimal_ne_nil i)]
  rw [show (natToDecimal i ++ ']' :: tail).drop (natToDecimal i).length =
    ']' :: tail from List.drop_left _ _]
  simp only [List.head?_cons, beq_self_eq_true, if_true, List.tail_cons]
  rw [contains_eq_false_of tail '\n' htail]
  simp

/-- Dropping one more than a block's length skips the block and the
following character. -/
theorem drop_block_succ (n r : List Char) (c : Char) :
    (n ++ c :: r).drop (n.length + 1) = r := by
  induction n with
  | nil => simp
  | cons d t ih => simp [ih]

/-- Last segment of the loop: a bare field name looks up in an object
(`Null` otherwise). -/
theorem path_go_field_last (c : Char) (n' : List Char)
    (hwn : ∀ ch ∈ c :: n', isWordChar ch = true) (m : Nat) (v : Value) :
    path_evaluate_go (m + 1) (c :: n') v =
      specResolvePath [PathStep.field (c :: n')] v := by
  have hdots : ∀ ch ∈ c :: n', ((ch == '.') : Bool) = false :=
    fun ch hc => char_ne_of_pred ch '.' isWordChar (hwn ch hc) (by decide)
  have hbrs : ∀ ch ∈ c :: n', ((ch == '[') : Bool) = false :=
    fun ch hc => char_ne_of_pred ch '[' isWordChar (hwn ch hc) (by decide)
  rw [path_evaluate_go.eq_def]
  dsimp only
  rw [arrayIndexMatch_name (c :: n') (by simp) hwn]
  rw [findIdx?_none _ _ hdots, findIdx?_none _ _ hbrs]
  cases v with
  | obj kv =>
    cases hobj : objGet kv (c :: n') with
    | none => simp [specResolvePath, hobj]
    | some w => simp [specResolvePath, hobj]
  | null => rfl
  | bool b => rfl
  | int k => rfl
  | double q => rfl
  | str s => rfl
  | arr xs => rfl

/-- Middle segment of the loop: `name.`⟨rest⟩ consumes the name in an
object and recurses on the rest (`Null` on mismatch, any further path
ignored when the field holds `Null`, matching the resolver). -/
theorem path_go_field_step (c : Char) (n' rr : List Char)
    (steps : List PathStep)
    (hwn : ∀ ch ∈ c :: n', isWordChar ch = true)
    (m : Nat) (v : Value)
    (hih : ∀ w, path_evaluate_go m rr w = specResolvePath steps w)
    (hnull : specResolvePath steps Value.null = Value.null) :
    path_evaluate_go (m + 1) ((c :: n') ++ '.' :: rr) v =
      specResolvePath (PathStep.field (c :: n') :: steps) v := by
  have hdots : ∀ ch ∈ c :: n', ((ch == '.') : Bool) = false :=
    fun ch hc => char_ne_of_pred ch '.' isWordChar (hwn ch hc) (by decide)
  have hbrs : ∀ ch ∈ c :: n', ((ch == '[') : Bool) = false :=
    fun ch hc => char_ne_of_pred ch '[' isWordChar (hwn ch hc) (by decide)
  have hdotPos : ((c :: n') ++ '.' :: rr).findIdx? (· == '.') =
      some (c :: n').length := by
    rw [findIdx?_append_none _ _ _ hdots]
    simp [List.findIdx?_cons]
  have hbrPos : ((c :: n') ++ '.' :: rr).findIdx? (· == '[') =
      ((rr.findIdx? (· == '[')).map (· + 1)).map (· + (c :: n').length) := by
    rw [findIdx?_append_none _ _ _ hbrs]
    simp only [List.findIdx?_cons]
    rw [if_neg (by decide)]
    rw [List.findIdx?_succ]
  have htake : ((c :: n') ++ '.' :: rr).take (c :: n').length = c :: n' :=
    List.take_left _ _
  have hdrop : ((c :: n') ++ '.' :: rr).drop ((c :: n').length + 1) = rr :=
    drop_block_succ _ rr '.'
  rw [List.cons_append, path_evaluate_go.eq_def]
  dsimp only
  rw [← List.cons_append]
  rw [arrayIndexMatch_name_dot (c :: n') rr (by simp) hwn]
  rw [hdotPos, hbrPos]
  cases hbr : rr.findIdx? (· == '[') with
  | none =>
    simp only [Option.map_none']
    cases v with
    | obj kv =>
      simp only [specResolvePath]
      rw [htake]
      cases hobj : objGet kv (c :: n') with
      | none => simp [specResolvePath]
      | some w =>
        cases w with
        | null => simp [hnull]
        | bool b => simp only [beq_self_eq_true, if_true, hdrop]; exact hih _
        | int k => simp only [beq_self_eq_true, if_true, hdrop]; exact hih _
        | double q => simp only [beq_self_eq_true, if_true, hdrop]; exact hih _
        | str s => simp only [beq_self_eq_true, if_true, hdrop]; exact hih _
        | arr xs => simp only [beq_self_eq_true, if_true, hdrop]; exact hih _
        | obj kv2 => simp only [beq_self_eq_true, if_true, hdrop]; exact hih _
    | null => rfl
    | bool b => rfl
    | int k => rfl
    | double q => rfl
    | str s => rfl
    | arr xs => rfl
  | some k =>
    simp only [Option.map_some']
    have hmin : (c :: n').length ⊓ (k + 1 + (c :: n').length) =
        (c :: n').length := Nat.min_eq_left (by omega)
    simp only [hmin]
    cases v with
    | obj kv =>
      simp only [specResolvePath]
      rw [htake]
      cases hobj : objGet kv (c :: n') with
      | none => simp [specResolvePath]
      | some w =>
        cases w with
        | null => simp [hnull]
        | bool b => simp only [beq_self_eq_true, if_true, hdrop]; exact hih _
        | int k2 => simp only [beq_self_eq_true, if_true, hdrop]; exact hih _
        | double q => simp only [beq_self_eq_true, if_true, hdrop]; exact hih _
        | str s => simp only [beq_self_eq_true, if_true, hdrop]; exact hih _
        | arr xs => simp only [beq_self_eq_true, if_true, hdrop]; exact hih _
        | obj kv2 => simp only [beq_self_eq_true, if_true, hdrop]; exact hih _
    | null => rfl
    | bool b => rfl
    | int k2 => rfl
    | double q => rfl
    | str s => rfl
    | arr xs => rfl

/-- Array segment of the loop: `name[i]`⟨tail⟩ looks up the name, indexes
the array and recurses on the tail with its leading dot stripped. -/
theorem path_go_idx_step (c : Char) (n' : List Char) (i : Nat)
    (tail rr : List Char) (steps : List PathStep)
    (hwn : ∀ ch ∈ c :: n', isWordChar ch = true)
    (htail0 : ∀ ch ∈ tail, ch ≠ '\n')
    (m : Nat) (v : Value)
    (htail : tail.dropWhile (· == '.') = rr)
    (hih : ∀ w, path_evaluate_go m rr w = specResolvePath steps w) :
    path_evaluate_go (m + 1)
        ((c :: n') ++ '[' :: (natToDecimal i ++ ']' :: tail)) v =
      specResolvePath (PathStep.field (c :: n') :: PathStep.index i :: steps) v := by
  rw [List.cons_append, path_evaluate_go.eq_def]
  dsimp only
  rw [← List.cons_append]
  rw [arrayIndexMatch_idx (c :: n') i tail (by simp) hwn htail0]
  cases v with
  | obj kv =>
    simp only [specResolvePath]
    cases hobj : objGet kv (c :: n') with
    | none => simp [specResolvePath]
    | some w =>
      cases w with
      | null => simp [specResolvePath]
      | arr xs =>
        simp only [parseNatDigits_natToDecimal]
        cases hget : xs.get? i with
        | none => simp [specResolvePath, hget]
        | some e =>
          simp only [hget, specResolvePath, htail]
          exact hih e
      | bool b => simp [specResolvePath]
      | int k => simp [specResolvePath]
      | double q => simp [specResolvePath]
      | str s => simp [specResolvePath]
      | obj kv2 => simp [specResolvePath]
  | null => rfl
  | bool b => rfl
  | int k => rfl
  | double q => rfl
  | str s => rfl
  | arr xs => rfl

/-- A well-formed group list renders to at least one character per
group, so the loop's fuel bound is met. -/
theorem renderAfterDot_length (gs : List PathGroup) :
    gs.all wfPathGroup = true → gs.length ≤ (renderAfterDot gs).length := by
  induction gs with
  | nil => intro _; simp [renderAfterDot]
  | cons g rest ih =>
    intro h
    obtain ⟨hwg, hwrest⟩ : wfPathGroup g = true ∧ rest.all wfPathGroup = true := by
      simpa using h
    have hr := ih hwrest
    cases g with
    | gField n =>
      have hn : 0 < n.length := by
        simp only [wfPathGroup, Bool.and_eq_true] at hwg
        cases n with
        | nil => simp at hwg
        | cons a b => simp
      by_cases hre : rest = []
      · subst hre
        simp only [renderAfterDot, List.isEmpty_nil, if_true, List.append_nil,
          List.length_cons, List.length_nil]
        omega
      · rw [renderAfterDot, if_neg (by simpa [List.isEmpty_eq_true] using hre)]
        simp only [List.length_append, List.length_cons]
        omega
    | gFieldIdx n i =>
      by_cases hre : rest = []
      · subst hre
        simp only [renderAfterDot, List.isEmpty_nil, if_true,
          List.length_append, List.length_cons, List.length_nil]
        omega
      · rw [renderAfterDot, if_neg (by simpa [List.isEmpty_eq_true] using hre)]
        simp only [List.length_append, List.length_cons]
        omega

/-- The code's path loop computes the specification's resolver on the
rendered form of any well-formed group list. -/
theorem path_go_groups (gs : List PathGroup) :
    ∀ fuel v, gs.all wfPathGroup = true → gs.length < fuel →
      path_evaluate_go fuel (renderAfterDot gs) v =
        specResolvePath (pathGroupsSteps gs) v := by
  induction gs with
  | nil =>
    intro fuel v _ hf
    match fuel, hf with
    | m + 1, _ =>
      simp [renderAfterDot, path_evaluate_go, pathGroupsSteps, specResolvePath]
  | cons g rest ih =>
    intro fuel v hwf hf
    obtain ⟨hwg, hwrest⟩ : wfPathGroup g = true ∧ rest.all wfPathGroup = true := by
      simpa using hwf
    match fuel, hf with
    | m + 1, hf =>
    have hm : rest.length < m := by
      simp only [List.length_cons] at hf
      omega
    have hih : ∀ w, path_evaluate_go m (renderAfterDot rest) w =
        specResolvePath (pathGroupsSteps rest) w :=
      fun w => ih m w hwrest hm
    have hnullres : specResolvePath (pathGroupsSteps rest) Value.null = Value.null := by
      cases hps : pathGroupsSteps rest with
      | nil => simp [specResolvePath]
      | cons s t => exact specResolvePath_null s t
    cases g with
    | gField n =>
      obtain ⟨hne, hwn⟩ : n ≠ [] ∧ ∀ c ∈ n, isWordChar c = true := by
        simp only [wfPathGroup, Bool.and_eq_true, List.all_eq_true,
          List.isEmpty_eq_true] at hwg
        exact ⟨by simpa using hwg.1, hwg.2⟩
      have hsteps : pathGroupsSteps (PathGroup.gField n :: rest) =
          PathStep.field n :: pathGroupsSteps rest := by
        simp [pathGroupsSteps, pathGroupSteps]
      by_cases hre : rest = []
      · subst hre
        have hrender : renderAfterDot [PathGroup.gField n] = n := by
          simp [renderAfterDot]
        rw [hrender, hsteps, show pathGroupsSteps ([] : List PathGroup) = [] from rfl]
        match n, hne, hwn with
        | c :: n', _, hwn =>
        exact path_go_field_last c n' hwn m v
      · have hrender : renderAfterDot (PathGroup.gField n :: rest) =
            n ++ '.' :: renderAfterDot rest := by
          rw [renderAfterDot]
          rw [if_neg (by simpa [List.isEmpty_eq_true] using hre)]
        rw [hrender, hsteps]
        match n, hne, hwn with
        | c :: n', _, hwn =>
        exact path_go_field_step c n' (renderAfterDot rest) (pathGroupsSteps rest)
          hwn m v hih hnullres
    | gFieldIdx n i =>
      obtain ⟨hne, hwn⟩ : n ≠ [] ∧ ∀ c ∈ n, isWordChar c = true := by
        simp only [wfPathGroup, Bool.and_eq_true, List.all_eq_true,
          List.isEmpty_eq_true] at hwg
        exact ⟨by simpa using hwg.1, hwg.2⟩
      have hsteps : pathGroupsSteps (PathGroup.gFieldIdx n i :: rest) =
          PathStep.field n :: PathStep.index i :: pathGroupsSteps rest := by
        simp [pathGroupsSteps, pathGroupSteps]
      have htail0 : ∀ ch ∈ (if rest.isEmpty then ([] : List Char)
          else '.' :: renderAfterDot rest), ch ≠ '\n' := by
        intro ch hc
        split_ifs at hc with hre
        · simp at hc
        · rcases List.mem_cons.mp hc with rfl | hc
          · decide
          · exact renderAfterDot_no_newline rest hwrest ch hc
      have htail : (if rest.isEmpty then ([] : List Char)
          else '.' :: renderAfterDot rest).dropWhile (· == '.') =
          renderAfterDot rest := by
        by_cases hre : rest = []
        · subst hre
          simp [renderAfterDot]
        · rw [if_neg (by simpa [List.isEmpty_eq_true] using hre)]
          have hhead : ∃ c2 cs2, renderAfterDot rest = c2 :: cs2 ∧
              isWordChar c2 = true := by
            cases rest with
            | nil => exact absurd rfl hre
            | cons g2 r2 =>
              have hg2 : wfPathGroup g2 = true := by
                simp only [List.all_cons, Bool.and_eq_true] at hwrest
                exact hwrest.1
              exact renderAfterDot_head g2 r2 hg2
          obtain ⟨c2, cs2, hc2, hcw⟩ := hhead
          rw [List.dropWhile_cons]
          simp only [beq_self_eq_true, if_true]
          rw [hc2, List.dropWhile_cons,
            char_ne_of_pred c2 '.' isWordChar hcw (by decide)]
          simp
      have hrender : renderAfterDot (PathGroup.gFieldIdx n i :: rest) =
          n ++ '[' :: (natToDecimal i ++ ']' ::
            (if rest.isEmpty then [] else '.' :: renderAfterDot rest)) := by
        rw [renderAfterDot]
      rw [hrender, hsteps]
      match n, hne, hwn with
      | c :: n', _, hwn =>
      exact path_go_idx_step c n' i _ (renderAfterDot rest) (pathGroupsSteps rest)
        hwn htail0 m v htail hih
/-- C2: amended. Path evaluation is a total function of the embedding
(it never raises), and on every path of dot-separated segments of the
form `name` or `name[i]` — the shapes the evaluator's regular expression
recognises, with no `[i][j]` index chaining — it returns exactly the
specification's resolver result: the leaf value when every segment
resolves, and `Null` on any shape mismatch (non-object for a name
segment, non-array or out-of-range index for an index segment), missing
field, or `Null` encountered mid-path. -/
theorem path_matches_spec_resolver (gs : List PathGroup) (v : Value)
    (h : gs.all wfPathGroup = true) :
    path_evaluate ('.' :: renderAfterDot gs) v =
      specResolvePath (pathGroupsSteps gs) v := by
  cases gs with
  | nil => simp [path_evaluate, renderAfterDot, pathGroupsSteps, specResolvePath]
  | cons g rest =>
    have hne : renderAfterDot (g :: rest) ≠ [] := by
      have hg : wfPathGroup g = true := by
        simp only [List.all_cons, Bool.and_eq_true] at h
        exact h.1
      obtain ⟨c2, cs2, hc2, _⟩ := renderAfterDot_head g rest hg
      rw [hc2]
      simp
    rw [path_evaluate, if_neg (by simp [hne])]
    rw [List.tail_cons]
    apply path_go_groups (g :: rest) _ v h
    have hlen := renderAfterDot_length (g :: rest) h
    simp only [List.length_cons] at hlen ⊢
    omega

/-- The chained-index path `.a[0][0]` on `{"a": [[5]]}`: the
specification's resolver reaches the leaf `5`, but the code's loop,
whose array pattern requires a field name before the bracket, returns
`Null`. -/
theorem path_chained_index_counterexample :
    renderPathSteps [PathStep.field ['a'], PathStep.index 0, PathStep.index 0] =
      ['.', 'a', '[', '0', ']', '[', '0', ']'] ∧
    path_evaluate ['.', 'a', '[', '0', ']', '[', '0', ']']
      (Value.obj [(['a'], Value.arr [Value.arr [Value.int 5]])]) = Value.null ∧
    specResolvePath [PathStep.field ['a'], PathStep.index 0, PathStep.index 0]
      (Value.obj [(['a'], Value.arr [Value.arr [Value.int 5]])]) = Value.int 5 :=
  ⟨rfl, rfl, rfl⟩

/-- Concrete instance of the amended path claim: `.a.b[1]` on
`{"a": {"b": [3, 7]}}` resolves to `7` on both sides. -/
theorem path_matches_spec_resolver_w :
    [PathGroup.gField ['a'], PathGroup.gFieldIdx ['b'] 1].all wfPathGroup = true ∧
    path_evaluate
        ('.' :: renderAfterDot [PathGroup.gField ['a'], PathGroup.gFieldIdx ['b'] 1])
        (Value.obj [(['a'], Value.obj [(['b'], Value.arr [Value.int 3, Value.int 7])])]) =
      specResolvePath
        (pathGroupsSteps [PathGroup.gField ['a'], PathGroup.gFieldIdx ['b'] 1])
        (Value.obj [(['a'], Value.obj [(['b'], Value.arr [Value.int 3, Value.int 7])])]) ∧
    specResolvePath
        (pathGroupsSteps [PathGroup.gField ['a'], PathGroup.gFieldIdx ['b'] 1])
        (Value.obj [(['a'], Value.obj [(['b'], Value.arr [Value.int 3, Value.int 7])])]) =
      Value.int 7 :=
  ⟨by decide, path_matches_spec_resolver _ _ (by decide), rfl⟩
